import Mathlib

/-!
Shallow embedding of the FastWARC core (`src/fastwarc/warc.pyx`):
the WARC header map, the header-block parser, the record model
(`parse_http`, `write`, digest verification) and the archive iterator.
Byte strings are `List Nat` (one `Nat` per byte); machine arithmetic that
matters (`size_t` subtraction, `int` range of `std::stoi`) is made explicit.
Loops are embedded as fuel-indexed structural recursions; each wrapper
instantiates the fuel with a provably sufficient bound so that every
definition evaluates on concrete inputs.
-/

set_option maxRecDepth 10000

namespace FastWarc

/-- ASCII bytes of a string literal (every character of the literal is ASCII). -/
def bs (s : String) : List Nat := s.data.map (fun c => c.toNat)

/-- C `isspace` on a byte (C locale): `' '` or the bytes 9..13. -/
def isspaceB (c : Nat) : Bool := c == 32 || (9 ≤ c && c ≤ 13)

/-- C `isdigit` on a byte. -/
def isdigitB (c : Nat) : Bool := 48 ≤ c && c ≤ 57

/-- C `tolower` on a byte (C locale). -/
def tolowerB (c : Nat) : Nat := if 65 ≤ c ∧ c ≤ 90 then c + 32 else c

/-- `str_to_lower` from warc.pyx: lowercases every byte of the string. -/
def str_to_lower (s : List Nat) : List Nat := s.map tolowerB

/-- `strip_str` from warc.pyx.  The two index-searching loops leave `start` at
the last scanned index when no non-space byte exists, and the length argument
`end - start + 1` of `substr` is computed in `size_t`; the `else` branches
reproduce that wrap-around behaviour (`substr` clamps an over-long count). -/
def strip_str (s : List Nat) : List Nat :=
  let start := (s.findIdx? (fun c => !isspaceB c)).getD (s.length - 1)
  let stop := ((s.reverse.findIdx? (fun c => !isspaceB c)).map
      (fun i => s.length - 1 - i)).getD 0
  if start ≤ stop then (s.drop start).take (stop + 1 - start)
  else if stop + 1 = start then []
  else s.drop start

/-- Value of a list of ASCII digit bytes, most significant first. -/
def digitsVal (ds : List Nat) : Nat := ds.foldl (fun a c => a * 10 + (c - 48)) 0

/-- `std::stoi` on a byte string (as declared in warc.pyx): skips leading
whitespace, accepts one optional sign, then parses leading decimal digits.
`none` models a thrown exception (`invalid_argument` when no digits follow,
`out_of_range` when the value does not fit in a 32-bit `int`). -/
def stoi (s : List Nat) : Option Int :=
  let t := s.dropWhile isspaceB
  let signed : Int × List Nat :=
    match t with
    | 43 :: r => (1, r)
    | 45 :: r => (-1, r)
    | u => (1, u)
  let ds := signed.2.takeWhile isdigitB
  if ds = [] then none
  else
    let v : Int := signed.1 * (digitsVal ds : Nat)
    if v < -(2 ^ 31) ∨ (2 ^ 31 - 1 : Int) < v then none else some v

/-- Little-endian digit bytes of `n`, by repeated division (fuel = `n`). -/
def natDigitsRev : Nat → Nat → List Nat
  | 0, _ => []
  | fuel + 1, n => if n = 0 then [] else (n % 10 + 48) :: natDigitsRev fuel (n / 10)

/-- `std::to_string` on a `size_t`: decimal ASCII representation. -/
def natToDigits (n : Nat) : List Nat :=
  if n = 0 then [48] else (natDigitsRev n n).reverse

/-- Modelled from the spec: the `BufferedReader` of `stream_io` is not part of
src/; §3 and §6 give its contract over an in-memory byte source: `read`,
`readline` (terminator included, empty on EOF), a byte limit respected as if
EOF, `consume`, and `tell` reporting the reader's logical offset in the
stream.  `limit` counts the bytes still readable under the current limit. -/
structure BufferedReader where
  data : List Nat
  pos : Nat
  limit : Option Nat
deriving Repr, DecidableEq

namespace BufferedReader

/-- Bytes currently readable: to the limit or to the end of the data. -/
def avail (r : BufferedReader) : Nat :=
  match r.limit with
  | none => r.data.length - r.pos
  | some l => min l (r.data.length - r.pos)

/-- The readable bytes themselves. -/
def window (r : BufferedReader) : List Nat := (r.data.drop r.pos).take (avail r)

/-- Advance the position by `n` bytes (callers pass `n ≤ avail`). -/
def advance (r : BufferedReader) (n : Nat) : BufferedReader :=
  ⟨r.data, r.pos + n, r.limit.map (fun l => l - n)⟩

/-- `read(n)`: up to `n` bytes, stopping at the limit. -/
def read (r : BufferedReader) (n : Nat) : List Nat × BufferedReader :=
  let m := min n (avail r)
  ((r.data.drop r.pos).take m, advance r m)

/-- `readline()`: up to and including the first `\n` in the window; the whole
window when no `\n` is left; empty at EOF (or at an exhausted limit). -/
def readline (r : BufferedReader) : List Nat × BufferedReader :=
  let w := window r
  let m := match w.findIdx? (fun c => c == 10) with
    | some i => i + 1
    | none => w.length
  (w.take m, advance r m)

/-- `tell()`: logical offset of the reader in the stream. -/
def tell (r : BufferedReader) : Nat := r.pos

/-- `set_limit(n)`. -/
def set_limit (r : BufferedReader) (n : Nat) : BufferedReader :=
  { r with limit := some n }

/-- `reset_limit()`. -/
def reset_limit (r : BufferedReader) : BufferedReader :=
  { r with limit := none }

/-- `consume()` with no argument: advance to the limit (or EOF). -/
def consume_all (r : BufferedReader) : BufferedReader := advance r (avail r)

/-- `consume(n)`: advance past up to `n` bytes. -/
def consume (r : BufferedReader) (n : Nat) : BufferedReader :=
  advance r (min n (avail r))

end BufferedReader

/-- Result of a Python-level computation: a value, or a raised exception. -/
inductive PyResult (α : Type) where
  | ok : α → PyResult α
  | exn : String → PyResult α
deriving Repr, DecidableEq

/-- Modelled from the spec: the `WarcRecordType` bit values are declared in
`warc.pxd`, which is not part of src/; §3 specifies nine real values forming a
bitset, plus the pseudo-values `no_type` ("preserve existing") and `any_type`
("match any": every real bit set). -/
def rtWarcinfo : Nat := 2

def rtResponse : Nat := 4

def rtResource : Nat := 8

def rtRequest : Nat := 16

def rtMetadata : Nat := 32

def rtRevisit : Nat := 64

def rtConversion : Nat := 128

def rtContinuationT : Nat := 256

def rtUnknown : Nat := 512

def rtNoType : Nat := 1

def rtAnyType : Nat := 1022

/-- `_str_record_type_to_enum` from warc.pyx. -/
def _str_record_type_to_enum (record_type : List Nat) : Nat :=
  let t := str_to_lower record_type
  if t = bs "warcinfo" then rtWarcinfo
  else if t = bs "response" then rtResponse
  else if t = bs "resource" then rtResource
  else if t = bs "request" then rtRequest
  else if t = bs "metadata" then rtMetadata
  else if t = bs "revisit" then rtRevisit
  else if t = bs "conversion" then rtConversion
  else if t = bs "continuation" then rtContinuationT
  else rtUnknown

/-- `_enum_record_type_to_str` from warc.pyx. -/
def _enum_record_type_to_str (record_type : Nat) : List Nat :=
  if record_type = rtWarcinfo then bs "warcinfo"
  else if record_type = rtResponse then bs "response"
  else if record_type = rtResource then bs "resource"
  else if record_type = rtRequest then bs "request"
  else if record_type = rtMetadata then bs "metadata"
  else if record_type = rtRevisit then bs "revisit"
  else if record_type = rtConversion then bs "conversion"
  else if record_type = rtContinuationT then bs "continuation"
  else bs "unknown"

/-- `WarcHeaderMap` from warc.pyx: an optional status line and an ordered
sequence of `(name, value)` byte-string pairs (the `_headers` vector).  The
decoded-string dictionary cache is modelled by the `pyDict` function below. -/
structure WarcHeaderMap where
  status_line : List Nat := []
  headers : List (List Nat × List Nat) := []
deriving Repr, DecidableEq

namespace WarcHeaderMap

/-- `set_status_line`. -/
def set_status_line (m : WarcHeaderMap) (s : List Nat) : WarcHeaderMap :=
  { m with status_line := s }

/-- `append_header`: always appends (duplicates permitted). -/
def append_header (m : WarcHeaderMap) (k v : List Nat) : WarcHeaderMap :=
  { m with headers := m.headers ++ [(k, v)] }

/-- `add_continuation`: append `" " + value` to the last header's value; with
no prior header, create a synthetic pair with empty name. -/
def add_continuation (m : WarcHeaderMap) (v : List Nat) : WarcHeaderMap :=
  match m.headers.reverse with
  | [] => { m with headers := [([], v)] }
  | (k0, v0) :: rest => { m with headers := ((k0, v0 ++ 32 :: v) :: rest).reverse }

/-- Auxiliary for `get_header`: first pair whose lowercased name matches. -/
def getHeaderAux : List (List Nat × List Nat) → List Nat → List Nat
  | [], _ => []
  | (k0, v0) :: rest, kl =>
    if str_to_lower k0 = kl then v0 else getHeaderAux rest kl

/-- `get_header`: case-insensitive lookup returning the value of the first
matching pair, or the empty string. -/
def get_header (m : WarcHeaderMap) (k : List Nat) : List Nat :=
  getHeaderAux m.headers (str_to_lower k)

/-- Auxiliary for `set_header`: replace the first case-insensitive match. -/
def setHeaderAux : List (List Nat × List Nat) → List Nat → List Nat → List Nat →
    List (List Nat × List Nat)
  | [], _, k, v => [(k, v)]
  | (k0, v0) :: rest, kl, k, v =>
    if str_to_lower k0 = kl then (k0, v) :: rest
    else (k0, v0) :: setHeaderAux rest kl k v

/-- `set_header`: replace the value of the first case-insensitive match, else
append a new pair. -/
def set_header (m : WarcHeaderMap) (k v : List Nat) : WarcHeaderMap :=
  { m with headers := setHeaderAux m.headers (str_to_lower k) k v }

/-- Insert-or-replace by (exact) key, as a Python dict comprehension does. -/
def pyDictInsert : List (List Nat × List Nat) → List Nat → List Nat →
    List (List Nat × List Nat)
  | [], k, v => [(k, v)]
  | (k0, v0) :: rest, k, v =>
    if k0 = k then (k0, v) :: rest else (k0, v0) :: pyDictInsert rest k v

/-- The dictionary built by `asdict()`: a Python dict comprehension over the
header pairs, so a later duplicate name overwrites an earlier one and keys are
compared exactly (byte decoding is the identity on our byte lists). -/
def pyDict (hs : List (List Nat × List Nat)) : List (List Nat × List Nat) :=
  hs.foldl (fun d kv => pyDictInsert d kv.1 kv.2) []

/-- `asdict()[k]` / `asdict().get(k)`: exact-key lookup in the decoded dict;
`none` models a `KeyError` (for item access) or the `get` default. -/
def asdict_get (m : WarcHeaderMap) (k : List Nat) : Option (List Nat) :=
  (pyDict m.headers).lookup k

/-- The `status_code` property from warc.pyx.  After checking that the status
line starts with `HTTP/`, splits on single spaces and checks the field count
and that the second field is all digits — and then executes `int(s)` on the
whole *list* `s`, which raises a `TypeError`. -/
def status_code (m : WarcHeaderMap) : PyResult (Option Int) :=
  if ¬ (m.status_line.take 5 = bs "HTTP/") then .ok none
  else
    match m.status_line.splitOn 32 with
    | [_, f1, _] =>
      if f1 ≠ [] ∧ f1.all isdigitB then .exn "TypeError" else .ok none
    | _ => .ok none

/-- `WarcHeaderMap.write`: serialize the status line and the header pairs;
a pair with an empty name is written as its bare value. -/
def writeBytes (m : WarcHeaderMap) : List Nat :=
  (if m.status_line.isEmpty then [] else m.status_line ++ [13, 10]) ++
  (m.headers.map (fun kv =>
    (if kv.1.isEmpty then [] else kv.1 ++ [58, 32]) ++ kv.2 ++ [13, 10])).flatten

end WarcHeaderMap

/-- `WarcRecord` from warc.pyx: the fields set in `__cinit__`, with the reader
defaulting to an empty in-memory reader (the Cython attribute is unset until
the iterator binds it). -/
structure WarcRecord where
  record_type : Nat := rtUnknown
  is_http : Bool := false
  http_parsed : Bool := false
  content_length : Nat := 0
  headers : WarcHeaderMap := {}
  http_headers : Option WarcHeaderMap := none
  reader : BufferedReader := ⟨[], 0, none⟩
  stream_pos : Nat := 0
deriving Repr, DecidableEq

/-- Result of `parse_header_block`: bytes consumed, the filled target map, and
the reader after the call. -/
structure HBResult where
  consumed : Nat
  target : WarcHeaderMap
  reader : BufferedReader
deriving Repr, DecidableEq

/-- Fuel-indexed body of `parse_header_block` from warc.pyx.  Each iteration
reads one line; the loop stops on a line equal to `\r\n` or on the empty line
(EOF).  A line whose first byte is whitespace — including a bare `\n` — is
folded as a continuation; with `has_status_line` set, the first ordinary line
becomes the status line; otherwise the line is split at its first `:` (a
colonless line is preserved as a continuation). -/
def phbFuel : Nat → BufferedReader → WarcHeaderMap → Bool → HBResult
  | 0, r, t, _ => ⟨0, t, r⟩
  | fuel + 1, r, t, hsl =>
    let p := BufferedReader.readline r
    let line := p.1
    if line = [] ∨ line = [13, 10] then ⟨line.length, t, p.2⟩
    else if isspaceB (line.headD 0) then
      let res := phbFuel fuel p.2 (t.add_continuation (strip_str line)) hsl
      ⟨line.length + res.consumed, res.target, res.reader⟩
    else if hsl then
      let res := phbFuel fuel p.2 (t.set_status_line (strip_str line)) false
      ⟨line.length + res.consumed, res.target, res.reader⟩
    else
      match line.findIdx? (fun c => c == 58) with
      | none =>
        let res := phbFuel fuel p.2 (t.add_continuation (strip_str line)) hsl
        ⟨line.length + res.consumed, res.target, res.reader⟩
      | some d =>
        let key := strip_str (line.take d)
        let v := if line.length ≤ d then [] else strip_str (line.drop (d + 1))
        let res := phbFuel fuel p.2 (t.append_header key v) hsl
        ⟨line.length + res.consumed, res.target, res.reader⟩

/-- `parse_header_block` from warc.pyx; the fuel bound is sufficient because
every loop iteration that recurses consumes at least one byte. -/
def parse_header_block (r : BufferedReader) (t : WarcHeaderMap) (hsl : Bool) :
    HBResult :=
  phbFuel (r.data.length - r.pos + 1) r t hsl

/-- `WarcRecord.parse_http` from warc.pyx: no-op when already parsed; else
parse the HTTP header block (status line captured) from the record's reader,
subtract (in `size_t` arithmetic) the consumed bytes from `content_length`,
and mark the record parsed. -/
def WarcRecord.parse_http (rcd : WarcRecord) : WarcRecord :=
  if rcd.http_parsed then rcd
  else
    let res := parse_header_block rcd.reader {} true
    { rcd with
      http_headers := some res.target,
      content_length :=
        (rcd.content_length + (2 ^ 64 - res.consumed % 2 ^ 64)) % 2 ^ 64,
      http_parsed := true,
      reader := res.reader }

/-- Fuel-indexed blank-line-skipping loop of `_read_next_record`: consume
`\r\n` / `\n` lines, adding `line.size() + 1` to the record's `stream_pos`
for each (as the code does on an uncompressed stream), and return the first
other line together with the advanced reader and the accumulated position. -/
def skipBlankFuel : Nat → BufferedReader → Nat → List Nat × BufferedReader × Nat
  | 0, r, sp => ([], r, sp)
  | fuel + 1, r, sp =>
    let p := BufferedReader.readline r
    if p.1 = [13, 10] ∨ p.1 = [10] then
      skipBlankFuel fuel p.2 (sp + p.1.length + 1)
    else (p.1, p.2, sp)

/-- Wrapper with sufficient fuel for the blank-line loop. -/
def skipBlankLines (r : BufferedReader) (sp : Nat) :
    List Nat × BufferedReader × Nat :=
  skipBlankFuel (r.data.length - r.pos + 1) r sp

/-- The header scan of `_read_next_record`: walk the parsed headers once,
extracting `Content-Length` (via `stoi`, whose failure raises — the `int`
result is then stored into the `size_t` field, i.e. reduced mod `2^64`),
`WARC-Type` (via the token table) and an `application/http` `Content-Type`
prefix, stopping once three of them have been resolved. -/
def scanHeaders : List (List Nat × List Nat) → Nat → Nat → Bool → Nat →
    PyResult (Nat × Nat × Bool)
  | [], cl, rt, http, _ => .ok (cl, rt, http)
  | (k, v) :: rest, cl, rt, http, cnt =>
    let kl := str_to_lower k
    if kl = bs "content-length" then
      match stoi v with
      | none => .exn "stoi"
      | some n =>
        let cl' := (n % (2 ^ 64 : Int)).toNat
        if 3 ≤ cnt + 1 then .ok (cl', rt, http)
        else scanHeaders rest cl' rt http (cnt + 1)
    else if kl = bs "warc-type" then
      let rt' := _str_record_type_to_enum v
      if 3 ≤ cnt + 1 then .ok (cl, rt', http)
      else scanHeaders rest cl rt' http (cnt + 1)
    else if kl = bs "content-type" ∧ v.take 16 = bs "application/http" then
      if 3 ≤ cnt + 1 then .ok (cl, rt, true)
      else scanHeaders rest cl rt true (cnt + 1)
    else scanHeaders rest cl rt http cnt

/-- `_NextRecStatus` from warc.pyx, extended with `exn` for the case in which
the per-iteration step raises (uncaught `stoi` failure). -/
inductive NextRecStatus where
  | has_next
  | skip_next
  | eof
  | exn
deriving Repr, DecidableEq

/-- The `ArchiveIterator` state over an uncompressed stream: the shared
buffered reader, the record held from the previous pull (if any), and the
`parse_http` / `record_type_filter` configuration.  Block-compressed streams
(`CompressingStream`, outside src/) are not modelled; on them only the
`stream_pos` source differs. -/
structure AIState where
  reader : BufferedReader
  record : Option WarcRecord
  parse_http : Bool
  record_type_filter : Nat
deriving Repr, DecidableEq

/-- `ArchiveIterator.__cinit__` over an in-memory uncompressed stream. -/
def ArchiveIterator.init (data : List Nat) (ph : Bool) (record_types : Nat) :
    AIState :=
  ⟨⟨data, 0, none⟩, none, ph, record_types⟩

/-- `ArchiveIterator._read_next_record` from warc.pyx (uncompressed stream):
reclaim the previous record's unread payload, record the start offset, skip
blank lines, validate the version line, parse the header block, scan the
headers, apply the record-type filter (skipping consumes the payload), set
the reader limit, and optionally parse HTTP headers. -/
def _read_next_record (st : AIState) : NextRecStatus × AIState :=
  let rdr0 := match st.record with
    | some _ => (BufferedReader.consume_all st.reader).reset_limit
    | none => st.reader
  let sp0 := BufferedReader.tell rdr0
  let blk := skipBlankLines rdr0 sp0
  let line := blk.1
  let rdr1 := blk.2.1
  let sp := blk.2.2
  if line = [] then (.eof, { st with reader := rdr1, record := none })
  else
    let v := strip_str line
    if v = bs "WARC/1.0" ∨ v = bs "WARC/1.1" then
      let hb := parse_header_block rdr1 { status_line := v } false
      match scanHeaders hb.target.headers 0 rtUnknown false 0 with
      | .exn _ => (.exn, { st with reader := hb.reader, record := none })
      | .ok (cl, rt, http) =>
        if rt &&& st.record_type_filter = 0 then
          let rdr2 := BufferedReader.consume hb.reader.reset_limit cl
          (.skip_next, { st with reader := rdr2, record := none })
        else
          let rdr3 := BufferedReader.set_limit hb.reader cl
          let rcd0 : WarcRecord :=
            { record_type := rt, is_http := http, http_parsed := false,
              content_length := cl, headers := hb.target, http_headers := none,
              reader := rdr3, stream_pos := sp }
          let rcd1 := if st.parse_http ∧ http then rcd0.parse_http else rcd0
          (.has_next, { st with reader := rcd1.reader, record := some rcd1 })
    else (.eof, { st with reader := rdr1, record := none })

/-- `ArchiveIterator.__iter__`, fuel-indexed: pull records until `Eof`,
applying `f` to each yielded record; also report whether iteration ended
cleanly at `Eof` and the reader's final position. -/
def iterRun {α : Type} (f : WarcRecord → α) : Nat → AIState → List α × Bool × Nat
  | 0, st => ([], false, st.reader.pos)
  | fuel + 1, st =>
    let s := _read_next_record st
    match s.1 with
    | .has_next =>
      let info := match s.2.record with
        | some rcd => f rcd
        | none => f {}
      let res := iterRun f fuel s.2
      (info :: res.1, res.2)
    | .skip_next => iterRun f fuel s.2
    | .eof => ([], true, s.2.reader.pos)
    | .exn => ([], false, s.2.reader.pos)

/-- Fuel-indexed read loop shared by `_write_impl` and `_verify_digest`:
`read(chunk)` until an empty chunk comes back, concatenating the chunks. -/
def readChunksFuel : Nat → BufferedReader → Nat → List Nat × BufferedReader
  | 0, r, _ => ([], r)
  | fuel + 1, r, chunk =>
    let p := BufferedReader.read r chunk
    if p.1 = [] then ([], p.2)
    else
      let rest := readChunksFuel fuel p.2 chunk
      (p.1 ++ rest.1, rest.2)

/-- Wrapper with sufficient fuel for the chunked read loop. -/
def readChunks (r : BufferedReader) (chunk : Nat) : List Nat × BufferedReader :=
  readChunksFuel (r.data.length - r.pos + 1) r chunk

/-- `WarcRecord._write_impl` from warc.pyx on a plain (non-compressing)
output stream, which we model as the emitted byte list: WARC headers, a blank
line, optionally the HTTP headers and a blank line, the remaining bytes of
`in_reader` in `chunk`-sized blocks, and a single final `\r\n`. -/
def _write_impl (hdrs : WarcHeaderMap) (httpHdrs : Option WarcHeaderMap)
    (http_parsed : Bool) (in_rdr : BufferedReader)
    (write_payload_headers : Bool) (chunk : Nat) : List Nat × BufferedReader :=
  let a := hdrs.writeBytes ++ [13, 10]
  let b := if write_payload_headers ∧ http_parsed then
      (httpHdrs.getD {}).writeBytes ++ [13, 10]
    else []
  let p := readChunks in_rdr chunk
  (a ++ b ++ p.1 ++ [13, 10], p.2)

/-- RFC-4648 base32 alphabet value of a byte (`A`..`Z`, `2`..`7`). -/
def b32charVal (c : Nat) : Option Nat :=
  if 65 ≤ c ∧ c ≤ 90 then some (c - 65)
  else if 50 ≤ c ∧ c ≤ 55 then some (c - 24)
  else none

/-- The five bits of a base32 value, most significant first. -/
def bits5 (v : Nat) : List Bool :=
  [v.testBit 4, v.testBit 3, v.testBit 2, v.testBit 1, v.testBit 0]

/-- The eight bits of a byte, most significant first. -/
def bits8 (v : Nat) : List Bool :=
  [v.testBit 7, v.testBit 6, v.testBit 5, v.testBit 4,
   v.testBit 3, v.testBit 2, v.testBit 1, v.testBit 0]

/-- Value of a bit list, most significant first. -/
def bitsVal (l : List Bool) : Nat :=
  l.foldl (fun a b => 2 * a + (if b then 1 else 0)) 0

/-- Group a bit list into bytes (any trailing partial byte is dropped). -/
def bytesOfBits (l : List Bool) : List Nat :=
  (List.range (l.length / 8)).map (fun i => bitsVal ((l.drop (8 * i)).take 8))

/-- `base64.b32decode` (stdlib, modelled): the input length must be a multiple
of 8, trailing `=` padding must leave 0, 1, 3, 4 or 6 pad characters, every
remaining character must be in the base32 alphabet; `none` models the raised
`binascii.Error`. -/
def b32decode (s : List Nat) : Option (List Nat) :=
  if s.length % 8 ≠ 0 then none
  else
    let body := (s.reverse.dropWhile (fun c => c == 61)).reverse
    let pad := s.length - body.length
    if ¬ (pad = 0 ∨ pad = 1 ∨ pad = 3 ∨ pad = 4 ∨ pad = 6) then none
    else
      match body.mapM b32charVal with
      | none => none
      | some vals =>
        let nbytes := vals.length * 5 / 8
        some ((bytesOfBits (vals.map bits5).flatten).take nbytes)

/-- Base32 alphabet character of a 5-bit value. -/
def b32alphabet (v : Nat) : Nat := if v < 26 then v + 65 else v + 24

/-- `base64.b32encode` (stdlib, modelled): pad the input to a multiple of five
bytes with zero bytes, emit one alphabet character per five bits, and replace
the trailing characters that cover only padding with `=`. -/
def b32encode (b : List Nat) : List Nat :=
  let leftover := b.length % 5
  let padbytes := (5 - leftover) % 5
  let bits := ((b ++ List.replicate padbytes 0).map bits8).flatten
  let chars := (List.range (bits.length / 5)).map
    (fun i => b32alphabet (bitsVal ((bits.drop (5 * i)).take 5)))
  let npad := if leftover = 0 then 0
    else if leftover = 1 then 6
    else if leftover = 2 then 4
    else if leftover = 3 then 3
    else 1
  chars.take (chars.length - npad) ++ List.replicate npad 61

/-- `WarcRecord._verify_digest` from warc.pyx, parameterized by the digest
functions of the hash library (`digestOf alg bytes` is the digest that
`hashlib` computes with algorithm `alg`): split the header value at the first
`:`, base32-decode the remainder (its failure raises), dispatch on the
algorithm token (unsupported tokens return false after a warning), then read
the remaining payload in 1024-byte chunks — tee'ing it into a memory buffer
that becomes the record's new reader, positioned at 0 — and compare digests. -/
def _verify_digest (digestOf : List Nat → List Nat → List Nat)
    (rcd : WarcRecord) (base32_digest : List Nat) :
    PyResult (Bool × WarcRecord) :=
  match base32_digest.findIdx? (fun c => c == 58) with
  | none => .ok (false, rcd)
  | some sep =>
    let alg := base32_digest.take sep
    match b32decode (base32_digest.drop (sep + 1)) with
    | none => .exn "binascii.Error"
    | some digest =>
      if alg = bs "sha1" ∨ alg = bs "md5" ∨ alg = bs "sha256" then
        let p := readChunks rcd.reader 1024
        .ok (digestOf alg p.1 == digest, { rcd with reader := ⟨p.1, 0, none⟩ })
      else .ok (false, rcd)

/-- `WarcRecord.verify_block_digest` from warc.pyx. -/
def WarcRecord.verify_block_digest (rcd : WarcRecord)
    (digestOf : List Nat → List Nat → List Nat) : PyResult (Bool × WarcRecord) :=
  _verify_digest digestOf rcd (rcd.headers.get_header (bs "WARC-Block-Digest"))

/-- `WarcRecord.verify_payload_digest` from warc.pyx. -/
def WarcRecord.verify_payload_digest (rcd : WarcRecord)
    (digestOf : List Nat → List Nat → List Nat) : PyResult (Bool × WarcRecord) :=
  if ¬ rcd.http_parsed then .ok (false, rcd)
  else _verify_digest digestOf rcd
    (rcd.headers.get_header (bs "WARC-Payload-Digest"))

/-- `WarcRecord.write` from warc.pyx, parameterized by the SHA-1 digest
function: the fast path streams the record through unchanged; otherwise the
block (HTTP headers if parsed, then the payload) is materialized in memory,
`Content-Length` is overwritten with the block size and, with
`checksum_data`, the digest headers are set before emitting. -/
def WarcRecord.write (rcd : WarcRecord) (sha1 : List Nat → List Nat)
    (checksum_data : Bool) (chunk : Nat) : List Nat × WarcRecord :=
  if ¬ checksum_data ∧ ¬ rcd.http_parsed then
    let p := _write_impl rcd.headers rcd.http_headers rcd.http_parsed
      rcd.reader true chunk
    (p.1, { rcd with reader := p.2 })
  else
    let hdrPart := if rcd.http_parsed then
        (rcd.http_headers.getD {}).writeBytes ++ [13, 10]
      else []
    let p := readChunks rcd.reader chunk
    let blockBuf := hdrPart ++ p.1
    let h1 := rcd.headers.set_header (bs "Content-Length")
      (natToDigits blockBuf.length)
    let h2 := if checksum_data then
        let h1a := if rcd.http_parsed then
            h1.set_header (bs "WARC-Payload-Digest")
              (bs "sha1:" ++ b32encode (sha1 p.1))
          else h1
        h1a.set_header (bs "WARC-Block-Digest")
          (bs "sha1:" ++ b32encode (sha1 blockBuf))
      else h1
    let q := _write_impl h2 rcd.http_headers rcd.http_parsed
      ⟨blockBuf, 0, none⟩ false chunk
    (q.1, { rcd with headers := h2, reader := p.2 })

/-- The round-trip driver: iterate, and write every yielded record to the
output with `checksum_data = false` before pulling the next one (the record
and the iterator share the reader, so the bytes the writer consumed are the
bytes the iterator reclaims). -/
def iterWriteFuel (sha1 : List Nat → List Nat) (chunk : Nat) :
    Nat → AIState → List Nat × Bool
  | 0, _ => ([], false)
  | fuel + 1, st =>
    let s := _read_next_record st
    match s.1 with
    | .has_next =>
      match s.2.record with
      | some rcd =>
        let w := rcd.write sha1 false chunk
        let res := iterWriteFuel sha1 chunk fuel
          { s.2 with reader := w.2.reader, record := some w.2 }
        (w.1 ++ res.1, res.2)
      | none => ([], false)
    | .skip_next => iterWriteFuel sha1 chunk fuel s.2
    | .eof => ([], true)
    | .exn => ([], false)

/-! ### Reader lemmas -/

namespace BufferedReader

@[simp] theorem avail_mk_none (D : List Nat) (p : Nat) :
    avail ⟨D, p, none⟩ = D.length - p := rfl

@[simp] theorem window_mk_none (D : List Nat) (p : Nat) :
    window ⟨D, p, none⟩ = D.drop p := by
  show (D.drop p).take (avail ⟨D, p, none⟩) = D.drop p
  rw [avail_mk_none, ← List.length_drop, List.take_length]

@[simp] theorem window_length (r : BufferedReader) :
    (window r).length = avail r := by
  have h : avail r ≤ r.data.length - r.pos := by
    unfold avail
    cases r.limit <;> simp
  simp [window, h]

@[simp] theorem advance_zero (r : BufferedReader) : advance r 0 = r := by
  unfold advance
  cases r with
  | mk D p l => cases l <;> simp

theorem advance_advance (r : BufferedReader) (m n : Nat) :
    advance (advance r m) n = advance r (m + n) := by
  unfold advance
  cases r with
  | mk D p l =>
    cases l with
    | none => simp [Nat.add_assoc]
    | some a => simp [Nat.add_assoc, Nat.sub_sub]

@[simp] theorem advance_data (r : BufferedReader) (n : Nat) :
    (advance r n).data = r.data := rfl

@[simp] theorem advance_pos (r : BufferedReader) (n : Nat) :
    (advance r n).pos = r.pos + n := rfl

theorem avail_advance (r : BufferedReader) (n : Nat) (h : n ≤ avail r) :
    avail (advance r n) = avail r - n := by
  unfold avail advance at *
  cases r with
  | mk D p l =>
    cases l with
    | none => simp at h ⊢; omega
    | some a => simp at h ⊢; omega

theorem window_advance (r : BufferedReader) (n : Nat) (h : n ≤ avail r) :
    window (advance r n) = (window r).drop n := by
  have hd : (advance r n).data.drop (advance r n).pos = (r.data.drop r.pos).drop n := by
    rw [advance_data, advance_pos, List.drop_drop]
  unfold window
  rw [hd, avail_advance r n h, List.drop_take]

end BufferedReader

theorem findIdx?_some_lt_aux {p : Nat → Bool} :
    ∀ (l : List Nat) (s i : Nat), List.findIdx? p l s = some i → i < s + l.length := by
  intro l
  induction l with
  | nil => intro s i h; simp [List.findIdx?] at h
  | cons x xs ih =>
    intro s i h
    rw [List.findIdx?_cons] at h
    by_cases hx : p x
    · rw [if_pos hx] at h
      cases h
      simp
    · rw [if_neg hx] at h
      have := ih (s + 1) i h
      simp only [List.length_cons]
      omega

theorem findIdx?_some_lt {l : List Nat} {p : Nat → Bool} {i : Nat}
    (h : l.findIdx? p = some i) : i < l.length := by
  have := findIdx?_some_lt_aux l 0 i h
  omega

theorem findIdx10_aux (rest : List Nat) :
    ∀ (a : List Nat) (s : Nat), (10 : Nat) ∉ a →
      List.findIdx? (fun c => c == 10) (a ++ 10 :: rest) s = some (s + a.length) := by
  intro a
  induction a with
  | nil =>
    intro s _
    rw [List.nil_append, List.findIdx?_cons]
    simp
  | cons x xs ih =>
    intro s h
    simp only [List.mem_cons, not_or] at h
    rw [List.cons_append, List.findIdx?_cons]
    have hx : (x == 10) = false := by
      simp only [beq_eq_false_iff_ne, ne_eq]
      exact fun hh => h.1 hh.symm
    rw [hx]
    simp only [Bool.false_eq_true, if_false]
    rw [ih (s + 1) h.2]
    simp only [List.length_cons]
    congr 1
    omega

theorem findIdx10 (a rest : List Nat) (h : (10 : Nat) ∉ a) :
    (a ++ 10 :: rest).findIdx? (fun c => c == 10) = some a.length := by
  have := findIdx10_aux rest a 0 h
  simpa using this

namespace BufferedReader

/-- The number of bytes `readline` consumes. -/
def rlLen (r : BufferedReader) : Nat :=
  match (window r).findIdx? (fun c => c == 10) with
  | some i => i + 1
  | none => (window r).length

theorem readline_eq (r : BufferedReader) :
    readline r = ((window r).take (rlLen r), advance r (rlLen r)) := rfl

theorem rlLen_le (r : BufferedReader) : rlLen r ≤ avail r := by
  rcases hf : (window r).findIdx? (fun c => c == 10) with _ | i
  · have he : rlLen r = (window r).length := by unfold rlLen; rw [hf]
    rw [he, window_length]
  · have he : rlLen r = i + 1 := by unfold rlLen; rw [hf]
    have := findIdx?_some_lt hf
    rw [window_length] at this
    omega

theorem rlLen_le_window (r : BufferedReader) : rlLen r ≤ (window r).length := by
  rw [window_length]
  exact rlLen_le r

@[simp] theorem readline_data (r : BufferedReader) :
    (readline r).2.data = r.data := rfl

theorem readline_pos (r : BufferedReader) :
    (readline r).2.pos = r.pos + (readline r).1.length := by
  rw [readline_eq]
  simp only [advance_pos, List.length_take, min_eq_left (rlLen_le_window r)]

theorem readline_len_le (r : BufferedReader) :
    (readline r).1.length ≤ avail r := by
  rw [readline_eq]
  simp only [List.length_take, min_eq_left (rlLen_le_window r)]
  exact rlLen_le r

theorem readline_snd (r : BufferedReader) :
    (readline r).2 = advance r (readline r).1.length := by
  rw [readline_eq]
  simp only [List.length_take, min_eq_left (rlLen_le_window r)]

theorem readline_concat {D : List Nat} {p : Nat} {a rest : List Nat}
    (h : D.drop p = a ++ 10 :: rest) (h10 : (10 : Nat) ∉ a) :
    readline ⟨D, p, none⟩ = (a ++ [10], ⟨D, p + (a.length + 1), none⟩) := by
  have hw : window ⟨D, p, none⟩ = a ++ 10 :: rest := by rw [window_mk_none, h]
  have hf : (window ⟨D, p, none⟩).findIdx? (fun c => c == 10) = some a.length := by
    rw [hw]
    exact findIdx10 a rest h10
  have hlen : rlLen ⟨D, p, none⟩ = a.length + 1 := by
    unfold rlLen
    rw [hf]
  rw [readline_eq, hlen, hw, Prod.mk.injEq]
  refine ⟨?_, ?_⟩
  · have h2 : a ++ 10 :: rest = (a ++ [10]) ++ rest := by simp
    rw [h2]
    have hl : (a ++ [10]).length = a.length + 1 := by simp
    rw [← hl, List.take_left]
  · simp [advance]

theorem readline_eof {D : List Nat} {p : Nat} (h : D.drop p = []) :
    readline ⟨D, p, none⟩ = ([], ⟨D, p, none⟩) := by
  have hw : window ⟨D, p, none⟩ = [] := by rw [window_mk_none, h]
  have hlen : rlLen ⟨D, p, none⟩ = 0 := by
    unfold rlLen
    rw [hw]
    simp [List.findIdx?_nil]
  rw [readline_eq, hlen, hw]
  simp

theorem avail_le (r : BufferedReader) : avail r ≤ r.data.length - r.pos := by
  unfold avail
  cases r.limit <;> simp

@[simp] theorem read_data (r : BufferedReader) (c : Nat) :
    (read r c).2.data = r.data := rfl

@[simp] theorem read_pos (r : BufferedReader) (c : Nat) :
    (read r c).2.pos = r.pos + min c (avail r) := rfl

theorem read_len (r : BufferedReader) (c : Nat) :
    (read r c).1.length = min c (avail r) := by
  unfold read
  have hav := avail_le r
  simp only [List.length_take, List.length_drop]
  omega

end BufferedReader

/-! ### Fuel congruence and unfolding for the loops -/

theorem phbFuel_congr :
    ∀ (f1 : Nat) {f2 : Nat} (r : BufferedReader) (t : WarcHeaderMap) (hsl : Bool),
      r.data.length - r.pos < f1 → r.data.length - r.pos < f2 →
      phbFuel f1 r t hsl = phbFuel f2 r t hsl := by
  intro f1
  induction f1 with
  | zero => intro f2 r t hsl h1 _; omega
  | succ a ih =>
    intro f2 r t hsl h1 h2
    cases f2 with
    | zero => omega
    | succ b =>
      have hd := BufferedReader.readline_data r
      have hpos := BufferedReader.readline_pos r
      have hll := BufferedReader.readline_len_le r
      have hav := BufferedReader.avail_le r
      simp only [phbFuel]
      by_cases hemp : (BufferedReader.readline r).1 = [] ∨
          (BufferedReader.readline r).1 = [13, 10]
      · rw [if_pos hemp, if_pos hemp]
      · have hne : (BufferedReader.readline r).1 ≠ [] := fun hh => hemp (Or.inl hh)
        have hlen1 : 1 ≤ (BufferedReader.readline r).1.length := by
          rcases hq : (BufferedReader.readline r).1 with _ | ⟨x, xs⟩
          · exact absurd hq hne
          · simp
        have hma : (BufferedReader.readline r).2.data.length -
            (BufferedReader.readline r).2.pos < a := by
          rw [hd, hpos]; omega
        have hmb : (BufferedReader.readline r).2.data.length -
            (BufferedReader.readline r).2.pos < b := by
          rw [hd, hpos]; omega
        have hrw : ∀ (t' : WarcHeaderMap) (hsl' : Bool),
            phbFuel a (BufferedReader.readline r).2 t' hsl' =
              phbFuel b (BufferedReader.readline r).2 t' hsl' :=
          fun t' hsl' => ih _ t' hsl' hma hmb
        rw [if_neg hemp, if_neg hemp]
        simp only [hrw]

theorem phbFuel_eq_wrapper (f : Nat) (r' : BufferedReader) (t' : WarcHeaderMap)
    (hsl' : Bool) (h : r'.data.length - r'.pos < f) :
    phbFuel f r' t' hsl' = parse_header_block r' t' hsl' := by
  unfold parse_header_block
  exact phbFuel_congr f r' t' hsl' h (by omega)

/-- `parse_header_block` stops immediately on a `\r\n` line or at EOF. -/
theorem phb_done (r : BufferedReader) (t : WarcHeaderMap) (hsl : Bool)
    (h : (BufferedReader.readline r).1 = [] ∨
      (BufferedReader.readline r).1 = [13, 10]) :
    parse_header_block r t hsl =
      ⟨(BufferedReader.readline r).1.length, t, (BufferedReader.readline r).2⟩ := by
  unfold parse_header_block
  simp only [phbFuel]
  rw [if_pos h]

theorem phb_rec_measure (r : BufferedReader)
    (hne : (BufferedReader.readline r).1 ≠ []) :
    (BufferedReader.readline r).2.data.length - (BufferedReader.readline r).2.pos <
      r.data.length - r.pos := by
  have hd := BufferedReader.readline_data r
  have hpos := BufferedReader.readline_pos r
  have hll := BufferedReader.readline_len_le r
  have hav := BufferedReader.avail_le r
  have hlen1 : 1 ≤ (BufferedReader.readline r).1.length := by
    rcases hq : (BufferedReader.readline r).1 with _ | ⟨x, xs⟩
    · exact absurd hq hne
    · simp
  rw [hd, hpos]
  omega

/-- `parse_header_block` folds a whitespace-initial line (a bare `\n`
included) as a continuation and keeps going. -/
theorem phb_cont (r : BufferedReader) (t : WarcHeaderMap) (hsl : Bool)
    (hne : ¬ ((BufferedReader.readline r).1 = [] ∨
      (BufferedReader.readline r).1 = [13, 10]))
    (hsp : isspaceB ((BufferedReader.readline r).1.headD 0)) :
    parse_header_block r t hsl =
      { consumed := (BufferedReader.readline r).1.length +
          (parse_header_block (BufferedReader.readline r).2
            (t.add_continuation (strip_str (BufferedReader.readline r).1)) hsl).consumed,
        target := (parse_header_block (BufferedReader.readline r).2
          (t.add_continuation (strip_str (BufferedReader.readline r).1)) hsl).target,
        reader := (parse_header_block (BufferedReader.readline r).2
          (t.add_continuation (strip_str (BufferedReader.readline r).1)) hsl).reader } := by
  have hm := phb_rec_measure r (fun hh => hne (Or.inl hh))
  conv_lhs => unfold parse_header_block
  simp only [phbFuel]
  rw [if_neg hne, if_pos hsp,
    phbFuel_eq_wrapper _ _ _ _ hm]

/-- With `has_status_line` set, the first ordinary line becomes the status
line and parsing continues with the flag cleared. -/
theorem phb_status (r : BufferedReader) (t : WarcHeaderMap)
    (hne : ¬ ((BufferedReader.readline r).1 = [] ∨
      (BufferedReader.readline r).1 = [13, 10]))
    (hsp : ¬ isspaceB ((BufferedReader.readline r).1.headD 0)) :
    parse_header_block r t true =
      { consumed := (BufferedReader.readline r).1.length +
          (parse_header_block (BufferedReader.readline r).2
            (t.set_status_line (strip_str (BufferedReader.readline r).1)) false).consumed,
        target := (parse_header_block (BufferedReader.readline r).2
          (t.set_status_line (strip_str (BufferedReader.readline r).1)) false).target,
        reader := (parse_header_block (BufferedReader.readline r).2
          (t.set_status_line (strip_str (BufferedReader.readline r).1)) false).reader } := by
  have hm := phb_rec_measure r (fun hh => hne (Or.inl hh))
  conv_lhs => unfold parse_header_block
  simp only [phbFuel]
  rw [if_neg hne, if_neg hsp, if_pos trivial,
    phbFuel_eq_wrapper _ _ _ _ hm]

/-- An ordinary header line with a colon is split and appended. -/
theorem phb_header (r : BufferedReader) (t : WarcHeaderMap) (d : Nat)
    (hne : ¬ ((BufferedReader.readline r).1 = [] ∨
      (BufferedReader.readline r).1 = [13, 10]))
    (hsp : ¬ isspaceB ((BufferedReader.readline r).1.headD 0))
    (hfi : (BufferedReader.readline r).1.findIdx? (fun c => c == 58) = some d) :
    parse_header_block r t false =
      (let line := (BufferedReader.readline r).1
      let key := strip_str (line.take d)
      let v := if line.length ≤ d then [] else strip_str (line.drop (d + 1))
      let res := parse_header_block (BufferedReader.readline r).2
        (t.append_header key v) false
      { consumed := line.length + res.consumed,
        target := res.target,
        reader := res.reader } : HBResult) := by
  have hm := phb_rec_measure r (fun hh => hne (Or.inl hh))
  have hrw : ∀ (t' : WarcHeaderMap) (hsl' : Bool),
      phbFuel (r.data.length - r.pos) (BufferedReader.readline r).2 t' hsl' =
        parse_header_block (BufferedReader.readline r).2 t' hsl' :=
    fun t' hsl' => phbFuel_eq_wrapper _ _ _ _ hm
  conv_lhs => unfold parse_header_block
  simp only [phbFuel]
  rw [if_neg hne, if_neg hsp]
  rw [if_neg (by simp : ¬ (false = true)), hfi]
  simp only [hrw]

/-- `parse_header_block` consumes exactly the bytes by which it advances the
reader, never more than the currently readable window, and leaves the
underlying data unchanged. -/
theorem phbFuel_spec :
    ∀ (f : Nat) (r : BufferedReader) (t : WarcHeaderMap) (hsl : Bool),
      r.data.length - r.pos < f →
      (phbFuel f r t hsl).reader.data = r.data ∧
      (phbFuel f r t hsl).reader.pos = r.pos + (phbFuel f r t hsl).consumed ∧
      (phbFuel f r t hsl).consumed ≤ BufferedReader.avail r := by
  intro f
  induction f with
  | zero => intro r t hsl h1; omega
  | succ a ih =>
    intro r t hsl h1
    have hd := BufferedReader.readline_data r
    have hpos := BufferedReader.readline_pos r
    have hll := BufferedReader.readline_len_le r
    have hav := BufferedReader.avail_le r
    simp only [phbFuel]
    by_cases hemp : (BufferedReader.readline r).1 = [] ∨
        (BufferedReader.readline r).1 = [13, 10]
    · rw [if_pos hemp]
      refine ⟨hd, ?_, hll⟩
      rw [hpos]
    · have hne : (BufferedReader.readline r).1 ≠ [] := fun hh => hemp (Or.inl hh)
      have hlen1 : 1 ≤ (BufferedReader.readline r).1.length := by
        rcases hq : (BufferedReader.readline r).1 with _ | ⟨x, xs⟩
        · exact absurd hq hne
        · simp
      have hma : (BufferedReader.readline r).2.data.length -
          (BufferedReader.readline r).2.pos < a := by
        rw [hd, hpos]; omega
      have havr : BufferedReader.avail (BufferedReader.readline r).2 =
          BufferedReader.avail r - (BufferedReader.readline r).1.length := by
        rw [BufferedReader.readline_snd]
        exact BufferedReader.avail_advance r _ hll
      rw [if_neg hemp]
      by_cases hsp : isspaceB ((BufferedReader.readline r).1.headD 0)
      · rw [if_pos hsp]
        dsimp only
        obtain ⟨s1, s2, s3⟩ := ih (BufferedReader.readline r).2 _ _ hma
        rw [havr] at s3
        exact ⟨by rw [s1, hd], by rw [s2, hpos]; omega, by omega⟩
      · rw [if_neg hsp]
        by_cases hq : hsl
        · rw [if_pos hq]
          dsimp only
          obtain ⟨s1, s2, s3⟩ := ih (BufferedReader.readline r).2 _ _ hma
          rw [havr] at s3
          exact ⟨by rw [s1, hd], by rw [s2, hpos]; omega, by omega⟩
        · rw [if_neg hq]
          rcases hfi : (BufferedReader.readline r).1.findIdx? (fun c => c == 58)
            with _ | d
          · dsimp only
            obtain ⟨s1, s2, s3⟩ := ih (BufferedReader.readline r).2 _ _ hma
            rw [havr] at s3
            exact ⟨by rw [s1, hd], by rw [s2, hpos]; omega, by omega⟩
          · dsimp only
            obtain ⟨s1, s2, s3⟩ := ih (BufferedReader.readline r).2 _ _ hma
            rw [havr] at s3
            exact ⟨by rw [s1, hd], by rw [s2, hpos]; omega, by omega⟩

theorem parse_header_block_spec (r : BufferedReader) (t : WarcHeaderMap)
    (hsl : Bool) :
    (parse_header_block r t hsl).reader.data = r.data ∧
    (parse_header_block r t hsl).reader.pos =
      r.pos + (parse_header_block r t hsl).consumed ∧
    (parse_header_block r t hsl).consumed ≤ BufferedReader.avail r := by
  unfold parse_header_block
  exact phbFuel_spec _ r t hsl (by omega)

theorem skipBlankFuel_congr :
    ∀ (f1 : Nat) {f2 : Nat} (r : BufferedReader) (sp : Nat),
      r.data.length - r.pos < f1 → r.data.length - r.pos < f2 →
      skipBlankFuel f1 r sp = skipBlankFuel f2 r sp := by
  intro f1
  induction f1 with
  | zero => intro f2 r sp h1 _; omega
  | succ a ih =>
    intro f2 r sp h1 h2
    cases f2 with
    | zero => omega
    | succ b =>
      have hd := BufferedReader.readline_data r
      have hpos := BufferedReader.readline_pos r
      have hll := BufferedReader.readline_len_le r
      have hav := BufferedReader.avail_le r
      simp only [skipBlankFuel]
      by_cases hb : (BufferedReader.readline r).1 = [13, 10] ∨
          (BufferedReader.readline r).1 = [10]
      · rw [if_pos hb, if_pos hb]
        have hlen1 : 1 ≤ (BufferedReader.readline r).1.length := by
          rcases hb with hb | hb <;> rw [hb] <;> simp
        apply ih
        · rw [hd, hpos]; omega
        · rw [hd, hpos]; omega
      · rw [if_neg hb, if_neg hb]

theorem skipBlankFuel_eq_wrapper (f : Nat) (r : BufferedReader) (sp : Nat)
    (h : r.data.length - r.pos < f) :
    skipBlankFuel f r sp = skipBlankLines r sp := by
  unfold skipBlankLines
  exact skipBlankFuel_congr f r sp h (by omega)

/-- A non-blank first line stops the blank-skipping loop at once. -/
theorem skipBlank_stop (r : BufferedReader) (sp : Nat)
    (h : ¬ ((BufferedReader.readline r).1 = [13, 10] ∨
      (BufferedReader.readline r).1 = [10])) :
    skipBlankLines r sp =
      ((BufferedReader.readline r).1, (BufferedReader.readline r).2, sp) := by
  unfold skipBlankLines
  simp only [skipBlankFuel]
  rw [if_neg h]

/-- A blank first line is consumed, adding `length + 1` to the position. -/
theorem skipBlank_blank (r : BufferedReader) (sp : Nat)
    (h : (BufferedReader.readline r).1 = [13, 10] ∨
      (BufferedReader.readline r).1 = [10]) :
    skipBlankLines r sp =
      skipBlankLines (BufferedReader.readline r).2
        (sp + (BufferedReader.readline r).1.length + 1) := by
  have hd := BufferedReader.readline_data r
  have hpos := BufferedReader.readline_pos r
  have hll := BufferedReader.readline_len_le r
  have hav := BufferedReader.avail_le r
  have hlen1 : 1 ≤ (BufferedReader.readline r).1.length := by
    rcases h with hb | hb <;> rw [hb] <;> simp
  conv_lhs => unfold skipBlankLines
  simp only [skipBlankFuel]
  rw [if_pos h]
  exact skipBlankFuel_eq_wrapper _ _ _ (by rw [hd, hpos]; omega)

theorem readChunksFuel_congr :
    ∀ (f1 : Nat) {f2 : Nat} (r : BufferedReader) (c : Nat),
      r.data.length - r.pos < f1 → r.data.length - r.pos < f2 →
      readChunksFuel f1 r c = readChunksFuel f2 r c := by
  intro f1
  induction f1 with
  | zero => intro f2 r c h1 _; omega
  | succ a ih =>
    intro f2 r c h1 h2
    cases f2 with
    | zero => omega
    | succ b =>
      have hav := BufferedReader.avail_le r
      simp only [readChunksFuel]
      by_cases hb : (BufferedReader.read r c).1 = []
      · rw [if_pos hb, if_pos hb]
      · have hlen1 : 1 ≤ (BufferedReader.read r c).1.length := by
          rcases hq : (BufferedReader.read r c).1 with _ | ⟨x, xs⟩
          · exact absurd hq hb
          · simp
        rw [BufferedReader.read_len] at hlen1
        rw [if_neg hb, if_neg hb, ih]
        · simp only [BufferedReader.read_data, BufferedReader.read_pos]
          omega
        · simp only [BufferedReader.read_data, BufferedReader.read_pos]
          omega

theorem readChunksFuel_eq_wrapper (f : Nat) (r : BufferedReader) (c : Nat)
    (h : r.data.length - r.pos < f) :
    readChunksFuel f r c = readChunks r c := by
  unfold readChunks
  exact readChunksFuel_congr f r c h (by omega)

/-- The chunked read loop delivers exactly the readable window and leaves the
reader advanced to the end of that window. -/
theorem readChunks_spec (r : BufferedReader) (c : Nat) (hc : 0 < c) :
    readChunks r c = (BufferedReader.window r, BufferedReader.consume_all r) := by
  generalize hf : r.data.length - r.pos + 1 = f
  have hlt : r.data.length - r.pos < f := by omega
  rw [← readChunksFuel_eq_wrapper f r c hlt]
  clear hf
  induction f generalizing r with
  | zero => omega
  | succ a ih =>
    have hav := BufferedReader.avail_le r
    simp only [readChunksFuel]
    by_cases hb : (BufferedReader.read r c).1 = []
    · rw [if_pos hb]
      have hlen : (BufferedReader.read r c).1.length = 0 := by rw [hb]; rfl
      rw [BufferedReader.read_len] at hlen
      have hz : BufferedReader.avail r = 0 := by omega
      have hw : BufferedReader.window r = [] := by
        have := BufferedReader.window_length r
        rw [hz] at this
        exact List.length_eq_zero.mp this
      rw [hw]
      unfold BufferedReader.consume_all
      rw [hz, BufferedReader.advance_zero]
      unfold BufferedReader.read
      rw [hz]
      simp
    · have hlen1 : 1 ≤ (BufferedReader.read r c).1.length := by
        rcases hq : (BufferedReader.read r c).1 with _ | ⟨x, xs⟩
        · exact absurd hq hb
        · simp
      rw [BufferedReader.read_len] at hlen1
      have hmin : min c (BufferedReader.avail r) ≤ BufferedReader.avail r :=
        min_le_right _ _
      rw [if_neg hb, ih]
      · have h2 : (BufferedReader.read r c).2 =
            BufferedReader.advance r (min c (BufferedReader.avail r)) := rfl
        rw [h2, BufferedReader.window_advance r _ hmin]
        have hfst : (BufferedReader.read r c).1 =
            (BufferedReader.window r).take (min c (BufferedReader.avail r)) := by
          unfold BufferedReader.read BufferedReader.window
          rw [List.take_take, min_eq_left hmin]
        rw [hfst, List.take_append_drop]
        unfold BufferedReader.consume_all
        rw [BufferedReader.avail_advance r _ hmin, BufferedReader.advance_advance]
        congr 1
        dsimp only
        rw [Nat.add_sub_cancel' hmin]
      · set m := min c (BufferedReader.avail r) with hm
        simp only [BufferedReader.read_data, BufferedReader.read_pos]
        omega

/-! ### `strip_str` and decimal-digit lemmas -/

theorem findIdx?_prefix_false {p : Nat → Bool} :
    ∀ (pre : List Nat) (x : Nat) (xs : List Nat) (s : Nat),
      (∀ c ∈ pre, p c = false) → p x = true →
      List.findIdx? p (pre ++ x :: xs) s = some (s + pre.length) := by
  intro pre
  induction pre with
  | nil =>
    intro x xs s _ hx
    rw [List.nil_append, List.findIdx?_cons, if_pos hx]
    simp
  | cons y ys ih =>
    intro x xs s hpre hx
    rw [List.cons_append, List.findIdx?_cons,
      if_neg (by rw [hpre y (List.mem_cons_self y ys)]; simp),
      ih x xs (s + 1) (fun c hc => hpre c (List.mem_cons_of_mem y hc)) hx]
    simp only [List.length_cons]
    congr 1
    omega

/-- A byte string wrapped as `" " ++ t ++ "\r\n"` strips back to `t` when `t`
is nonempty and free of whitespace bytes. -/
theorem strip_sandwich (t : List Nat) (hne : t ≠ [])
    (hns : ∀ c ∈ t, isspaceB c = false) :
    strip_str (32 :: (t ++ [13, 10])) = t := by
  obtain ⟨x, xs, rfl⟩ : ∃ x xs, t = x :: xs := by
    cases t with
    | nil => exact absurd rfl hne
    | cons x xs => exact ⟨x, xs, rfl⟩
  obtain ⟨y, ys, hrev⟩ : ∃ y ys, (x :: xs).reverse = y :: ys := by
    rcases hq : (x :: xs).reverse with _ | ⟨y, ys⟩
    · rw [List.reverse_eq_nil_iff] at hq
      exact absurd hq (by simp)
    · exact ⟨y, ys, rfl⟩
  have hy : y ∈ x :: xs := by
    have hmem : y ∈ (x :: xs).reverse := by rw [hrev]; exact List.mem_cons_self y ys
    exact List.mem_reverse.mp hmem
  have hstart : (32 :: (x :: xs ++ [13, 10])).findIdx?
      (fun c => !isspaceB c) = some 1 := by
    have he : (32 : Nat) :: (x :: xs ++ [13, 10]) = [32] ++ x :: (xs ++ [13, 10]) := by
      simp
    rw [he, findIdx?_prefix_false [32] x (xs ++ [13, 10]) 0
      (by intro c hc; simp at hc; subst hc; rfl)
      (by rw [hns x (List.mem_cons_self x xs)]; rfl)]
    rfl
  have hrevs : (32 :: (x :: xs ++ [13, 10])).reverse =
      [10, 13] ++ y :: (ys ++ [32]) := by
    rw [List.reverse_cons, List.reverse_append, hrev]
    simp
  have hstop : ((32 :: (x :: xs ++ [13, 10])).reverse).findIdx?
      (fun c => !isspaceB c) = some 2 := by
    rw [hrevs, findIdx?_prefix_false [10, 13] y (ys ++ [32]) 0
      (by intro c hc; simp at hc; rcases hc with rfl | rfl <;> rfl)
      (by rw [hns y hy]; rfl)]
    rfl
  have hlen : (32 :: (x :: xs ++ [13, 10])).length = xs.length + 4 := by simp
  unfold strip_str
  rw [hstart, hstop]
  simp only [Option.map_some', Option.getD_some, hlen]
  have h1 : xs.length + 4 - 1 - 2 = xs.length + 1 := by omega
  rw [h1]
  rw [if_pos (by omega)]
  have h2 : xs.length + 1 + 1 - 1 = (x :: xs).length := by simp
  rw [h2]
  have h3 : (32 :: (x :: xs ++ [13, 10])).drop 1 = (x :: xs) ++ [13, 10] := rfl
  rw [h3]
  exact List.take_left (x :: xs) [13, 10]

theorem digitsVal_append (ds : List Nat) (d : Nat) :
    digitsVal (ds ++ [d]) = digitsVal ds * 10 + (d - 48) := by
  unfold digitsVal
  rw [List.foldl_append]
  rfl

theorem natDigitsRev_zero (fuel : Nat) : natDigitsRev fuel 0 = [] := by
  cases fuel <;> simp [natDigitsRev]

theorem natDigitsRev_spec :
    ∀ (fuel n : Nat), n ≤ fuel → 0 < n →
      digitsVal (natDigitsRev fuel n).reverse = n ∧
      natDigitsRev fuel n ≠ [] ∧
      ∀ c ∈ natDigitsRev fuel n, 48 ≤ c ∧ c ≤ 57 := by
  intro fuel
  induction fuel with
  | zero => intro n h1 h2; omega
  | succ a ih =>
    intro n h1 h2
    have hd : n % 10 ≤ 9 := by omega
    rw [natDigitsRev, if_neg (by omega)]
    by_cases hq : n / 10 = 0
    · rw [hq, natDigitsRev_zero]
      refine ⟨?_, by simp, ?_⟩
      · show digitsVal [n % 10 + 48] = n
        unfold digitsVal
        simp only [List.foldl_cons, List.foldl_nil, Nat.zero_mul, Nat.zero_add]
        omega
      · intro c hc
        simp at hc
        omega
    · have hle : n / 10 ≤ a := by omega
      obtain ⟨ih1, ih2, ih3⟩ := ih (n / 10) hle (by omega)
      refine ⟨?_, by simp, ?_⟩
      · rw [List.reverse_cons, digitsVal_append, ih1]
        omega
      · intro c hc
        rcases List.mem_cons.mp hc with rfl | hc
        · omega
        · exact ih3 c hc

theorem natToDigits_spec (n : Nat) :
    digitsVal (natToDigits n) = n ∧
    natToDigits n ≠ [] ∧
    ∀ c ∈ natToDigits n, 48 ≤ c ∧ c ≤ 57 := by
  unfold natToDigits
  by_cases h : n = 0
  · rw [if_pos h, h]
    exact ⟨rfl, by simp, by intro c hc; simp at hc; omega⟩
  · rw [if_neg h]
    obtain ⟨h1, h2, h3⟩ := natDigitsRev_spec n n (Nat.le_refl n) (by omega)
    refine ⟨h1, ?_, ?_⟩
    · intro hh
      exact h2 (by simpa using congrArg List.reverse hh)
    · intro c hc
      exact h3 c (by simpa using hc)

theorem isspaceB_digit {c : Nat} (h : 48 ≤ c ∧ c ≤ 57) : isspaceB c = false := by
  unfold isspaceB
  have h1 : (c == 32) = false := by
    simp only [beq_eq_false_iff_ne, ne_eq]
    omega
  have h2 : (decide (c ≤ 13)) = false := by
    simp only [decide_eq_false_iff_not, not_le]
    omega
  rw [h1, h2, Bool.and_false, Bool.or_false]

theorem isdigitB_of (c : Nat) (h : 48 ≤ c ∧ c ≤ 57) : isdigitB c = true := by
  unfold isdigitB
  simp only [Bool.and_eq_true, decide_eq_true_eq]
  omega

theorem takeWhile_all {p : Nat → Bool} :
    ∀ (l : List Nat), (∀ c ∈ l, p c = true) → l.takeWhile p = l := by
  intro l
  induction l with
  | nil => intro _; rfl
  | cons x xs ih =>
    intro h
    rw [List.takeWhile_cons, if_pos (h x (List.mem_cons_self x xs)),
      ih (fun c hc => h c (List.mem_cons_of_mem x hc))]

/-- `stoi` on a pure digit string returns its decimal value when it fits in a
32-bit `int`. -/
theorem stoi_digits (ds : List Nat) (hne : ds ≠ [])
    (hd : ∀ c ∈ ds, 48 ≤ c ∧ c ≤ 57)
    (hval : (digitsVal ds : Int) ≤ 2 ^ 31 - 1) :
    stoi ds = some (digitsVal ds) := by
  obtain ⟨x, xs, rfl⟩ : ∃ x xs, ds = x :: xs := by
    cases ds with
    | nil => exact absurd rfl hne
    | cons x xs => exact ⟨x, xs, rfl⟩
  have hx := hd x (List.mem_cons_self x xs)
  have hdw : List.dropWhile isspaceB (x :: xs) = x :: xs := by
    rw [List.dropWhile_cons, if_neg (by rw [isspaceB_digit hx]; simp)]
  have hnc : ¬ (x = 43 ∨ x = 45) := by omega
  have hmatch : (match x :: xs with
      | 43 :: r => ((1 : Int), r)
      | 45 :: r => ((-1 : Int), r)
      | t => ((1 : Int), t)) = ((1 : Int), x :: xs) := by
    split
    · next hh => rw [List.cons.injEq] at hh; exact absurd (Or.inl hh.1) hnc
    · next hh => rw [List.cons.injEq] at hh; exact absurd (Or.inr hh.1) hnc
    · rfl
  have htw := takeWhile_all (x :: xs) (fun c hc => isdigitB_of c (hd c hc))
  have hpos : (0 : Int) ≤ (digitsVal (x :: xs) : Int) := Int.ofNat_nonneg _
  simp only [stoi, hdw, hmatch, htw]
  rw [if_neg (by simp)]
  rw [if_neg (by push_neg; refine ⟨?_, ?_⟩ <;> simp only [one_mul] <;> omega)]
  rw [one_mul]
  rfl

theorem headD_append {l1 l2 : List Nat} (h : l1 ≠ []) :
    (l1 ++ l2).headD 0 = l1.headD 0 := by
  cases l1 with
  | nil => exact absurd rfl h
  | cons x xs => rfl

/-- Parsing one well-formed header line `pre ++ ": " ++ val ++ "\r\n"` appends
the pair `(strip_str pre, val)` and continues after the line. -/
theorem phb_header_line (D : List Nat) (q : Nat) (pre val rest2 : List Nat)
    (m : WarcHeaderMap)
    (hpre_ne : pre ≠ [])
    (hpreH : isspaceB (pre.headD 0) = false)
    (hpre58 : ∀ c ∈ pre, (c == 58) = false)
    (hpre10 : (10 : Nat) ∉ pre)
    (hval1 : val ≠ []) (hval2 : ∀ c ∈ val, isspaceB c = false)
    (hD : D.drop q = pre ++ [58, 32] ++ val ++ [13, 10] ++ rest2) :
    parse_header_block ⟨D, q, none⟩ m false =
      (let res := parse_header_block
          ⟨D, q + (pre.length + 2 + (val.length + 2)), none⟩
          (m.append_header (strip_str pre) val) false
      ⟨pre.length + 2 + (val.length + 2) + res.consumed, res.target, res.reader⟩
        : HBResult) := by
  have hp1 : 0 < pre.length := List.length_pos.mpr hpre_ne
  have hv1 : 0 < val.length := List.length_pos.mpr hval1
  have ha1 : D.drop q = (pre ++ 58 :: 32 :: (val ++ [13])) ++ 10 :: rest2 := by
    rw [hD]; simp
  have h10 : (10 : Nat) ∉ pre ++ 58 :: 32 :: (val ++ [13]) := by
    intro hmem
    rcases List.mem_append.mp hmem with h | h
    · exact hpre10 h
    · rcases List.mem_cons.mp h with h1 | h1
      · omega
      rcases List.mem_cons.mp h1 with h2 | h2
      · omega
      rcases List.mem_append.mp h2 with h3 | h3
      · exact absurd (hval2 _ h3) (by decide)
      · have h4 := List.mem_singleton.mp h3
        omega
  have hrl := BufferedReader.readline_concat ha1 h10
  have hline : (BufferedReader.readline ⟨D, q, none⟩).1 =
      pre ++ 58 :: 32 :: (val ++ [13, 10]) := by
    rw [hrl]; simp
  have hsnd : (BufferedReader.readline ⟨D, q, none⟩).2 =
      ⟨D, q + ((pre ++ 58 :: 32 :: (val ++ [13])).length + 1), none⟩ := by
    rw [hrl]
  have hlinelen : (BufferedReader.readline ⟨D, q, none⟩).1.length =
      pre.length + (val.length + 4) := by
    rw [hline]; simp
  have hne : ¬ ((BufferedReader.readline ⟨D, q, none⟩).1 = [] ∨
      (BufferedReader.readline ⟨D, q, none⟩).1 = [13, 10]) := by
    intro h
    have hl2 : (BufferedReader.readline ⟨D, q, none⟩).1.length = 0 ∨
        (BufferedReader.readline ⟨D, q, none⟩).1.length = 2 := by
      rcases h with h | h <;> rw [h] <;> simp
    rw [hlinelen] at hl2
    omega
  have hsp : ¬ isspaceB ((BufferedReader.readline ⟨D, q, none⟩).1.headD 0) = true := by
    rw [hline]
    have : (pre ++ 58 :: 32 :: (val ++ [13, 10])).headD 0 = pre.headD 0 :=
      headD_append hpre_ne
    rw [this, hpreH]
    simp
  have hfi : (BufferedReader.readline ⟨D, q, none⟩).1.findIdx?
      (fun c => c == 58) = some pre.length := by
    rw [hline]
    have := findIdx?_prefix_false pre 58 (32 :: (val ++ [13, 10])) 0 hpre58 rfl
    simpa using this
  rw [phb_header ⟨D, q, none⟩ m pre.length hne hsp hfi]
  have htake : (BufferedReader.readline ⟨D, q, none⟩).1.take pre.length = pre := by
    rw [hline]
    have : pre ++ 58 :: 32 :: (val ++ [13, 10]) =
        pre ++ (58 :: 32 :: (val ++ [13, 10])) := rfl
    rw [this, List.take_left]
  have hdlen : ¬ ((BufferedReader.readline ⟨D, q, none⟩).1.length ≤ pre.length) := by
    rw [hlinelen]; omega
  have hdrop : (BufferedReader.readline ⟨D, q, none⟩).1.drop (pre.length + 1) =
      32 :: (val ++ [13, 10]) := by
    rw [hline,
      show pre ++ 58 :: 32 :: (val ++ [13, 10]) =
        (pre ++ [58]) ++ (32 :: (val ++ [13, 10])) by simp]
    exact List.drop_left' (by simp)
  have hposq : (pre ++ 58 :: 32 :: (val ++ [13])).length + 1 =
      pre.length + 2 + (val.length + 2) := by simp; omega
  simp only
  rw [htake, if_neg hdlen, hdrop, strip_sandwich val hval1 hval2, hsnd, hposq,
    hlinelen]
  have harr : pre.length + (val.length + 4) = pre.length + 2 + (val.length + 2) := by
    omega
  rw [harr]

/-- The terminating `\r\n` line of a header block. -/
theorem phb_final (D : List Nat) (q : Nat) (rest : List Nat) (m : WarcHeaderMap)
    (hsl : Bool) (hD : D.drop q = [13, 10] ++ rest) :
    parse_header_block ⟨D, q, none⟩ m hsl = ⟨2, m, ⟨D, q + 2, none⟩⟩ := by
  have ha : D.drop q = [13] ++ 10 :: rest := hD
  have hrl := BufferedReader.readline_concat ha (by decide)
  have hline : (BufferedReader.readline ⟨D, q, none⟩).1 = [13, 10] := by
    rw [hrl]
    rfl
  have hsnd : (BufferedReader.readline ⟨D, q, none⟩).2 = ⟨D, q + 2, none⟩ := by
    rw [hrl]
    rfl
  rw [phb_done _ m hsl (Or.inr hline), hline, hsnd]
  rfl

/-- Parsing the canonical two-header block
`"WARC-Type: " ++ t ++ "\r\nContent-Length: " ++ ds ++ "\r\n\r\n"`. -/
theorem phb_two (D : List Nat) (q : Nat) (t ds rest : List Nat) (m : WarcHeaderMap)
    (ht1 : t ≠ []) (ht2 : ∀ c ∈ t, isspaceB c = false)
    (hds1 : ds ≠ []) (hds2 : ∀ c ∈ ds, 48 ≤ c ∧ c ≤ 57)
    (hD : D.drop q = bs "WARC-Type: " ++ t ++ [13, 10] ++
      bs "Content-Length: " ++ ds ++ [13, 10] ++ [13, 10] ++ rest) :
    parse_header_block ⟨D, q, none⟩ m false =
      ⟨13 + t.length + (18 + ds.length) + 2,
       (m.append_header (bs "WARC-Type") t).append_header (bs "Content-Length") ds,
       ⟨D, q + (13 + t.length + (18 + ds.length) + 2), none⟩⟩ := by
  have hds2' : ∀ c ∈ ds, isspaceB c = false := fun c hc => isspaceB_digit (hds2 c hc)
  have hD1 : D.drop q = bs "WARC-Type" ++ [58, 32] ++ t ++ [13, 10] ++
      (bs "Content-Length: " ++ ds ++ [13, 10] ++ [13, 10] ++ rest) := by
    rw [hD, show bs "WARC-Type: " = bs "WARC-Type" ++ [58, 32] from by decide]
    simp
  rw [phb_header_line D q (bs "WARC-Type") t _ m (by decide) (by decide)
    (by decide) (by decide) ht1 ht2 hD1]
  simp only
  rw [show strip_str (bs "WARC-Type") = bs "WARC-Type" from by decide,
    show (bs "WARC-Type").length = 9 from by decide]
  have hD2 : D.drop (q + (9 + 2 + (t.length + 2))) =
      bs "Content-Length" ++ [58, 32] ++ ds ++ [13, 10] ++ ([13, 10] ++ rest) := by
    have hdd : D.drop (q + (9 + 2 + (t.length + 2))) =
        (D.drop q).drop (9 + 2 + (t.length + 2)) := by
      rw [List.drop_drop]
    rw [hdd, hD1]
    have hsh : bs "WARC-Type" ++ [58, 32] ++ t ++ [13, 10] ++
        (bs "Content-Length: " ++ ds ++ [13, 10] ++ [13, 10] ++ rest) =
        (bs "WARC-Type" ++ [58, 32] ++ t ++ [13, 10]) ++
        (bs "Content-Length" ++ [58, 32] ++ ds ++ [13, 10] ++ ([13, 10] ++ rest)) := by
      rw [show bs "Content-Length: " = bs "Content-Length" ++ [58, 32] from by decide]
      simp
    rw [hsh]
    refine List.drop_left' ?_
    simp only [List.length_append, List.length_cons, List.length_nil,
      show (bs "WARC-Type").length = 9 from by decide]
    omega
  rw [phb_header_line D (q + (9 + 2 + (t.length + 2))) (bs "Content-Length") ds _ _
    (by decide) (by decide) (by decide) (by decide) hds1 hds2' hD2]
  simp only
  rw [show strip_str (bs "Content-Length") = bs "Content-Length" from by decide,
    show (bs "Content-Length").length = 14 from by decide]
  have hD3 : D.drop (q + (9 + 2 + (t.length + 2)) + (14 + 2 + (ds.length + 2))) =
      [13, 10] ++ rest := by
    have hdd : D.drop (q + (9 + 2 + (t.length + 2)) + (14 + 2 + (ds.length + 2))) =
        (D.drop (q + (9 + 2 + (t.length + 2)))).drop (14 + 2 + (ds.length + 2)) := by
      rw [List.drop_drop]
    rw [hdd, hD2]
    have hsh : bs "Content-Length" ++ [58, 32] ++ ds ++ [13, 10] ++ ([13, 10] ++ rest) =
        (bs "Content-Length" ++ [58, 32] ++ ds ++ [13, 10]) ++ ([13, 10] ++ rest) := by
      simp
    rw [hsh]
    refine List.drop_left' ?_
    simp only [List.length_append, List.length_cons, List.length_nil,
      show (bs "Content-Length").length = 14 from by decide]
    omega
  rw [phb_final D _ rest _ false hD3]
  simp only [HBResult.mk.injEq, BufferedReader.mk.injEq, eq_self_iff_true,
    and_true, true_and]
  constructor <;> omega

/-! ### Canonical well-formed WARC streams -/

/-- A record of a canonical WARC stream: a `WARC-Type` token and an arbitrary
payload. -/
structure RawRec where
  token : List Nat
  payload : List Nat
deriving Repr, DecidableEq

/-- Well-formedness: the type token is a nonempty whitespace-free byte string,
and the payload length fits the `int` range that `stoi` can parse back. -/
def wfRec (r : RawRec) : Prop :=
  r.token ≠ [] ∧ (∀ c ∈ r.token, isspaceB c = false) ∧ r.payload.length < 2 ^ 31

/-- The record header on the wire: version line, `WARC-Type`,
`Content-Length`, blank line. -/
def encHead (r : RawRec) : List Nat :=
  bs "WARC/1.1" ++ [13, 10] ++ bs "WARC-Type: " ++ r.token ++ [13, 10] ++
    bs "Content-Length: " ++ natToDigits r.payload.length ++ [13, 10] ++ [13, 10]

/-- A record on the wire (§4.4): header block, payload, trailing `\r\n`. -/
def encodeRec (r : RawRec) : List Nat := encHead r ++ r.payload ++ [13, 10]

/-- The header map the iterator parses from `encodeRec`. -/
def parsedHeaders (r : RawRec) : WarcHeaderMap :=
  { status_line := bs "WARC/1.1",
    headers := [(bs "WARC-Type", r.token),
                (bs "Content-Length", natToDigits r.payload.length)] }

/-- The record the iterator yields from `encodeRec r`, its reader placed at
payload offset `q` with the limit set, and `stream_pos` at `sp`. -/
def parsedRecord (r : RawRec) (D : List Nat) (q sp : Nat) : WarcRecord :=
  { record_type := _str_record_type_to_enum r.token,
    is_http := false, http_parsed := false,
    content_length := r.payload.length,
    headers := parsedHeaders r, http_headers := none,
    reader := ⟨D, q, some r.payload.length⟩,
    stream_pos := sp }

theorem encHead_len (r : RawRec) :
    (encHead r).length =
      10 + (13 + r.token.length + (18 + (natToDigits r.payload.length).length) + 2) := by
  unfold encHead
  simp only [List.length_append, List.length_cons, List.length_nil,
    show (bs "WARC/1.1").length = 8 from by decide,
    show (bs "WARC-Type: ").length = 11 from by decide,
    show (bs "Content-Length: ").length = 16 from by decide]
  omega

/-- The header scan over the two canonical headers resolves the type and the
content length without raising. -/
theorem scan_two (t : List Nat) (plen : Nat) (hp : plen < 2 ^ 31) :
    scanHeaders [(bs "WARC-Type", t), (bs "Content-Length", natToDigits plen)]
      0 rtUnknown false 0 =
      .ok (plen, _str_record_type_to_enum t, false) := by
  obtain ⟨hv, hne, hdig⟩ := natToDigits_spec plen
  have hstoi : stoi (natToDigits plen) = some ((plen : Nat) : Int) := by
    have hb : (digitsVal (natToDigits plen) : Int) ≤ 2 ^ 31 - 1 := by
      rw [hv]
      have : (plen : Int) < 2 ^ 31 := by exact_mod_cast hp
      omega
    have := stoi_digits (natToDigits plen) hne hdig hb
    rw [hv] at this
    exact this
  have hmod : (((plen : Nat) : Int) % (2 ^ 64 : Int)).toNat = plen := by
    rw [Int.emod_eq_of_lt (by positivity) (by exact_mod_cast
      (by omega : plen < 2 ^ 64))]
    simp
  simp only [scanHeaders]
  rw [if_neg (by decide), if_pos (by decide), if_neg (by omega),
    if_pos (by decide), hstoi]
  simp only [hmod]
  rw [if_neg (by omega)]

/-- One pull of the iterator positioned at the start of a well-formed record:
it either yields the parsed record with the reader limited to the payload, or
— when the type filter rejects it — consumes exactly the payload and skips. -/
theorem step_one (D : List Nat) (p : Nat) (r : RawRec) (rest : List Nat)
    (ph : Bool) (F : Nat) (hwf : wfRec r)
    (hD : D.drop p = encodeRec r ++ rest) :
    _read_next_record ⟨⟨D, p, none⟩, none, ph, F⟩ =
      if _str_record_type_to_enum r.token &&& F = 0 then
        (.skip_next, ⟨⟨D, p + (encHead r).length + r.payload.length, none⟩,
          none, ph, F⟩)
      else
        (.has_next, ⟨⟨D, p + (encHead r).length, some r.payload.length⟩,
          some (parsedRecord r D (p + (encHead r).length) p), ph, F⟩) := by
  obtain ⟨ht1, ht2, hp31⟩ := hwf
  have hD0 : D.drop p = (bs "WARC/1.1" ++ [13]) ++ 10 ::
      (bs "WARC-Type: " ++ r.token ++ [13, 10] ++
        bs "Content-Length: " ++ natToDigits r.payload.length ++ [13, 10] ++
        [13, 10] ++ (r.payload ++ [13, 10] ++ rest)) := by
    rw [hD]
    unfold encodeRec encHead
    simp
  have hrl0 := BufferedReader.readline_concat hD0 (by decide)
  have hline0 : (BufferedReader.readline ⟨D, p, none⟩).1 =
      bs "WARC/1.1" ++ [13, 10] := by
    rw [hrl0]; simp
  have hsnd0 : (BufferedReader.readline ⟨D, p, none⟩).2 = ⟨D, p + 10, none⟩ := by
    have h10 : (bs "WARC/1.1" ++ [13]).length + 1 = 10 := by decide
    rw [hrl0]
    dsimp only
    rw [h10]
  have hskip : skipBlankLines ⟨D, p, none⟩ p =
      (bs "WARC/1.1" ++ [13, 10], ⟨D, p + 10, none⟩, p) := by
    rw [skipBlank_stop _ _ (by rw [hline0]; decide), hline0, hsnd0]
  have hD1 : D.drop (p + 10) =
      bs "WARC-Type: " ++ r.token ++ [13, 10] ++
        bs "Content-Length: " ++ natToDigits r.payload.length ++ [13, 10] ++
        [13, 10] ++ (r.payload ++ [13, 10] ++ rest) := by
    have hdd : D.drop (p + 10) = (D.drop p).drop 10 := by rw [List.drop_drop]
    rw [hdd, hD0]
    have hsh : (bs "WARC/1.1" ++ [13]) ++ 10 ::
        (bs "WARC-Type: " ++ r.token ++ [13, 10] ++
          bs "Content-Length: " ++ natToDigits r.payload.length ++ [13, 10] ++
          [13, 10] ++ (r.payload ++ [13, 10] ++ rest)) =
        (bs "WARC/1.1" ++ [13, 10]) ++
        (bs "WARC-Type: " ++ r.token ++ [13, 10] ++
          bs "Content-Length: " ++ natToDigits r.payload.length ++ [13, 10] ++
          [13, 10] ++ (r.payload ++ [13, 10] ++ rest)) := by simp
    rw [hsh]
    exact List.drop_left' (by decide)
  obtain ⟨hvv, hdne, hddig⟩ := natToDigits_spec r.payload.length
  have hphb := phb_two D (p + 10) r.token (natToDigits r.payload.length)
    (r.payload ++ [13, 10] ++ rest) { status_line := bs "WARC/1.1" }
    ht1 ht2 hdne hddig (by rw [hD1])
  have hq3 : p + 10 + (13 + r.token.length +
      (18 + (natToDigits r.payload.length).length) + 2) =
      p + (encHead r).length := by
    rw [encHead_len]
    omega
  have hD2 : D.drop (p + (encHead r).length) = r.payload ++ ([13, 10] ++ rest) := by
    have hdd : D.drop (p + (encHead r).length) =
        (D.drop p).drop (encHead r).length := by rw [List.drop_drop]
    rw [hdd, hD]
    have hsh : encodeRec r ++ rest = encHead r ++ (r.payload ++ ([13, 10] ++ rest)) := by
      unfold encodeRec
      simp
    rw [hsh]
    exact List.drop_left' rfl
  have hlenD2 : r.payload.length ≤ D.length - (p + (encHead r).length) := by
    have := congrArg List.length hD2
    simp only [List.length_drop, List.length_append] at this
    omega
  have hmapeq : ((({ status_line := bs "WARC/1.1" } :
      WarcHeaderMap).append_header (bs "WARC-Type") r.token).append_header
        (bs "Content-Length") (natToDigits r.payload.length)) = parsedHeaders r := by
    simp [WarcHeaderMap.append_header, parsedHeaders]
  simp only [_read_next_record, BufferedReader.tell]
  rw [hskip]
  simp only
  rw [if_neg (by decide),
    show strip_str (bs "WARC/1.1" ++ [13, 10]) = bs "WARC/1.1" from by decide,
    if_pos (Or.inr rfl), hphb]
  simp only [hmapeq]
  rw [show (parsedHeaders r).headers =
      [(bs "WARC-Type", r.token), (bs "Content-Length", natToDigits r.payload.length)]
    from rfl]
  rw [scan_two r.token r.payload.length hp31]
  simp only
  rw [hq3]
  have hmin : min r.payload.length (D.length - (p + (encHead r).length)) =
      r.payload.length := by omega
  by_cases hf : _str_record_type_to_enum r.token &&& F = 0
  · rw [if_pos hf, if_pos hf]
    simp only [BufferedReader.reset_limit, BufferedReader.consume,
      BufferedReader.avail_mk_none, BufferedReader.advance, hmin,
      Option.map_none']
  · rw [if_neg hf, if_neg hf,
      if_neg (by simp : ¬ (ph = true ∧ false = true))]
    simp only [BufferedReader.set_limit, parsedRecord]

/-- A held record is reclaimed by consuming to the limit and resetting it;
after that the pull proceeds as from a fresh state. -/
theorem step_norm (rdr : BufferedReader) (rcd : WarcRecord) (ph : Bool) (F : Nat) :
    _read_next_record ⟨rdr, some rcd, ph, F⟩ =
      _read_next_record ⟨(BufferedReader.consume_all rdr).reset_limit, none, ph, F⟩ :=
  rfl

/-- Reclaiming a yielded record's reader advances it to the end of the
payload and clears the limit. -/
theorem normalize_after_yield (D : List Nat) (P plen : Nat)
    (h : plen ≤ D.length - P) :
    (BufferedReader.consume_all ⟨D, P, some plen⟩).reset_limit =
      ⟨D, P + plen, none⟩ := by
  unfold BufferedReader.consume_all BufferedReader.reset_limit
  have ha : BufferedReader.avail ⟨D, P, some plen⟩ = plen := by
    unfold BufferedReader.avail
    simp
    omega
  rw [ha]
  simp [BufferedReader.advance]

theorem iterRun_norm {α : Type} (f : WarcRecord → α) (fuel : Nat)
    (rdr : BufferedReader) (rcd : WarcRecord) (ph : Bool) (F : Nat)
    (h : 1 ≤ fuel) :
    iterRun f fuel ⟨rdr, some rcd, ph, F⟩ =
      iterRun f fuel ⟨(BufferedReader.consume_all rdr).reset_limit, none, ph, F⟩ := by
  cases fuel with
  | zero => omega
  | succ a => rfl

/-- At a final `\r\n` followed by end of stream, the pull returns `Eof` with
the reader positioned at the end of the data. -/
theorem step_eof (D : List Nat) (p : Nat) (ph : Bool) (F : Nat)
    (hD : D.drop p = [13, 10]) :
    _read_next_record ⟨⟨D, p, none⟩, none, ph, F⟩ =
      (.eof, ⟨⟨D, p + 2, none⟩, none, ph, F⟩) := by
  have hb : D.drop p = [13] ++ 10 :: [] := hD
  have hrlb := BufferedReader.readline_concat hb (by decide)
  have h1 : (BufferedReader.readline ⟨D, p, none⟩).1 = [13, 10] := by
    rw [hrlb]
    rfl
  have h2 : (BufferedReader.readline ⟨D, p, none⟩).2 = ⟨D, p + 2, none⟩ := by
    rw [hrlb]
    rfl
  have hd2 : D.drop (p + 2) = [] := by
    have hdd : D.drop (p + 2) = (D.drop p).drop 2 := by rw [List.drop_drop]
    rw [hdd, hD]
    rfl
  have hrl2 := BufferedReader.readline_eof hd2
  have hskip : skipBlankLines ⟨D, p, none⟩ p = ([], ⟨D, p + 2, none⟩, p + 3) := by
    rw [skipBlank_blank _ _ (Or.inl h1), h1, h2,
      skipBlank_stop _ _ (by rw [hrl2]; simp), hrl2]
    rfl
  simp only [_read_next_record, BufferedReader.tell]
  rw [hskip]
  simp only
  rw [if_pos trivial]

/-- At end of stream, the pull returns `Eof` without moving. -/
theorem step_eof_empty (D : List Nat) (p : Nat) (ph : Bool) (F : Nat)
    (hD : D.drop p = []) :
    _read_next_record ⟨⟨D, p, none⟩, none, ph, F⟩ =
      (.eof, ⟨⟨D, p, none⟩, none, ph, F⟩) := by
  have hrl := BufferedReader.readline_eof hD
  have hskip : skipBlankLines ⟨D, p, none⟩ p = ([], ⟨D, p, none⟩, p) := by
    rw [skipBlank_stop _ _ (by rw [hrl]; simp), hrl]
  simp only [_read_next_record, BufferedReader.tell]
  rw [hskip]
  simp only
  rw [if_pos trivial]

/-- `step_one` for a record preceded by the previous record's trailing
`\r\n`: identical, except that the blank line shifts every offset by two and
`stream_pos` lands one byte past the version line (the `size() + 1` bug). -/
theorem step_one_blank (D : List Nat) (p : Nat) (r : RawRec) (rest : List Nat)
    (ph : Bool) (F : Nat) (hwf : wfRec r)
    (hD : D.drop p = [13, 10] ++ (encodeRec r ++ rest)) :
    _read_next_record ⟨⟨D, p, none⟩, none, ph, F⟩ =
      if _str_record_type_to_enum r.token &&& F = 0 then
        (.skip_next, ⟨⟨D, p + 2 + (encHead r).length + r.payload.length, none⟩,
          none, ph, F⟩)
      else
        (.has_next, ⟨⟨D, p + 2 + (encHead r).length, some r.payload.length⟩,
          some (parsedRecord r D (p + 2 + (encHead r).length) (p + 3)), ph, F⟩) := by
  obtain ⟨ht1, ht2, hp31⟩ := hwf
  have hb : D.drop p = [13] ++ 10 :: (encodeRec r ++ rest) := hD
  have hrlb := BufferedReader.readline_concat hb (by decide)
  have hb1 : (BufferedReader.readline ⟨D, p, none⟩).1 = [13, 10] := by
    rw [hrlb]
    rfl
  have hb2 : (BufferedReader.readline ⟨D, p, none⟩).2 = ⟨D, p + 2, none⟩ := by
    rw [hrlb]
    rfl
  have hDp2 : D.drop (p + 2) = encodeRec r ++ rest := by
    have hdd : D.drop (p + 2) = (D.drop p).drop 2 := by rw [List.drop_drop]
    rw [hdd, hD]
    rfl
  have hD0 : D.drop (p + 2) = (bs "WARC/1.1" ++ [13]) ++ 10 ::
      (bs "WARC-Type: " ++ r.token ++ [13, 10] ++
        bs "Content-Length: " ++ natToDigits r.payload.length ++ [13, 10] ++
        [13, 10] ++ (r.payload ++ [13, 10] ++ rest)) := by
    rw [hDp2]
    unfold encodeRec encHead
    simp
  have hrl0 := BufferedReader.readline_concat hD0 (by decide)
  have hline0 : (BufferedReader.readline ⟨D, p + 2, none⟩).1 =
      bs "WARC/1.1" ++ [13, 10] := by
    rw [hrl0]; simp
  have hsnd0 : (BufferedReader.readline ⟨D, p + 2, none⟩).2 =
      ⟨D, p + 2 + 10, none⟩ := by
    have h10 : (bs "WARC/1.1" ++ [13]).length + 1 = 10 := by decide
    rw [hrl0]
    dsimp only
    rw [h10]
  have hskip : skipBlankLines ⟨D, p, none⟩ p =
      (bs "WARC/1.1" ++ [13, 10], ⟨D, p + 2 + 10, none⟩, p + 3) := by
    rw [skipBlank_blank _ _ (Or.inl hb1), hb1, hb2,
      skipBlank_stop _ _ (by rw [hline0]; decide), hline0, hsnd0]
    rfl
  have hD1 : D.drop (p + 2 + 10) =
      bs "WARC-Type: " ++ r.token ++ [13, 10] ++
        bs "Content-Length: " ++ natToDigits r.payload.length ++ [13, 10] ++
        [13, 10] ++ (r.payload ++ [13, 10] ++ rest) := by
    have hdd : D.drop (p + 2 + 10) = (D.drop (p + 2)).drop 10 := by
      rw [List.drop_drop]
    rw [hdd, hD0]
    have hsh : (bs "WARC/1.1" ++ [13]) ++ 10 ::
        (bs "WARC-Type: " ++ r.token ++ [13, 10] ++
          bs "Content-Length: " ++ natToDigits r.payload.length ++ [13, 10] ++
          [13, 10] ++ (r.payload ++ [13, 10] ++ rest)) =
        (bs "WARC/1.1" ++ [13, 10]) ++
        (bs "WARC-Type: " ++ r.token ++ [13, 10] ++
          bs "Content-Length: " ++ natToDigits r.payload.length ++ [13, 10] ++
          [13, 10] ++ (r.payload ++ [13, 10] ++ rest)) := by simp
    rw [hsh]
    exact List.drop_left' (by decide)
  obtain ⟨hvv, hdne, hddig⟩ := natToDigits_spec r.payload.length
  have hphb := phb_two D (p + 2 + 10) r.token (natToDigits r.payload.length)
    (r.payload ++ [13, 10] ++ rest) { status_line := bs "WARC/1.1" }
    ht1 ht2 hdne hddig (by rw [hD1])
  have hq3 : p + 2 + 10 + (13 + r.token.length +
      (18 + (natToDigits r.payload.length).length) + 2) =
      p + 2 + (encHead r).length := by
    rw [encHead_len]
    omega
  have hD2 : D.drop (p + 2 + (encHead r).length) =
      r.payload ++ ([13, 10] ++ rest) := by
    have hdd : D.drop (p + 2 + (encHead r).length) =
        (D.drop (p + 2)).drop (encHead r).length := by rw [List.drop_drop]
    rw [hdd, hDp2]
    have hsh : encodeRec r ++ rest =
        encHead r ++ (r.payload ++ ([13, 10] ++ rest)) := by
      unfold encodeRec
      simp
    rw [hsh]
    exact List.drop_left' rfl
  have hlenD2 : r.payload.length ≤ D.length - (p + 2 + (encHead r).length) := by
    have := congrArg List.length hD2
    simp only [List.length_drop, List.length_append] at this
    omega
  have hmapeq : ((({ status_line := bs "WARC/1.1" } :
      WarcHeaderMap).append_header (bs "WARC-Type") r.token).append_header
        (bs "Content-Length") (natToDigits r.payload.length)) = parsedHeaders r := by
    simp [WarcHeaderMap.append_header, parsedHeaders]
  simp only [_read_next_record, BufferedReader.tell]
  rw [hskip]
  simp only
  rw [if_neg (by decide),
    show strip_str (bs "WARC/1.1" ++ [13, 10]) = bs "WARC/1.1" from by decide,
    if_pos (Or.inr rfl), hphb]
  simp only [hmapeq]
  rw [show (parsedHeaders r).headers =
      [(bs "WARC-Type", r.token), (bs "Content-Length", natToDigits r.payload.length)]
    from rfl]
  rw [scan_two r.token r.payload.length hp31]
  simp only
  rw [hq3]
  have hmin : min r.payload.length (D.length - (p + 2 + (encHead r).length)) =
      r.payload.length := by omega
  by_cases hf : _str_record_type_to_enum r.token &&& F = 0
  · rw [if_pos hf, if_pos hf]
    simp only [BufferedReader.reset_limit, BufferedReader.consume,
      BufferedReader.avail_mk_none, BufferedReader.advance, hmin,
      Option.map_none']
  · rw [if_neg hf, if_neg hf,
      if_neg (by simp : ¬ (ph = true ∧ false = true))]
    simp only [BufferedReader.set_limit, parsedRecord]

/-- The observable data of a yielded record for the filter law. -/
def recInfo (rcd : WarcRecord) : Nat × Nat := (rcd.record_type, rcd.content_length)

/-- What the spec's filter law predicts (§8.7, stated from the claim's words):
exactly the records whose type has a non-zero bitwise AND with the filter, in
stream order, observed as `(record_type, content_length)` pairs. -/
def filterLawExpected (rs : List RawRec) (F : Nat) : List (Nat × Nat) :=
  (rs.filter (fun r => _str_record_type_to_enum r.token &&& F != 0)).map
    (fun r => (_str_record_type_to_enum r.token, r.payload.length))

/-- Main iteration loop invariant: positioned at an inter-record `\r\n`
followed by the encodings of the remaining records, the iterator yields
exactly the filtered records and ends cleanly at the end of the stream. -/
theorem iter_loop_blank :
    ∀ (rs : List RawRec) (D : List Nat) (p fuel : Nat) (ph : Bool) (F : Nat),
      (∀ r ∈ rs, wfRec r) → rs.length + 1 ≤ fuel →
      D.drop p = [13, 10] ++ (rs.map encodeRec).flatten →
      iterRun recInfo fuel ⟨⟨D, p, none⟩, none, ph, F⟩ =
        (filterLawExpected rs F, true, D.length) := by
  intro rs
  induction rs with
  | nil =>
    intro D p fuel ph F _ hfuel hD
    simp only [List.map_nil, List.flatten_nil, List.append_nil] at hD
    cases fuel with
    | zero => omega
    | succ a =>
      simp only [iterRun]
      rw [step_eof D p ph F hD]
      have hlen : D.length = p + 2 := by
        have hgl := congrArg List.length hD
        simp only [List.length_drop] at hgl
        simp at hgl
        omega
      simp only [filterLawExpected, List.filter_nil, List.map_nil]
      rw [hlen]
  | cons r rest ih =>
    intro D p fuel ph F hwf hfuel hD
    cases fuel with
    | zero => simp at hfuel
    | succ a =>
      have hwfr : wfRec r := hwf r (List.mem_cons_self r rest)
      have hwfrest : ∀ r' ∈ rest, wfRec r' :=
        fun r' hr' => hwf r' (List.mem_cons_of_mem r hr')
      have hfuel' : rest.length + 1 ≤ a := by
        simp only [List.length_cons] at hfuel
        omega
      have hDr : D.drop p = [13, 10] ++
          (encodeRec r ++ (rest.map encodeRec).flatten) := by
        rw [hD]; simp
      have hD2 : D.drop (p + 2 + (encHead r).length) =
          r.payload ++ ([13, 10] ++ (rest.map encodeRec).flatten) := by
        have hdd : D.drop (p + 2 + (encHead r).length) =
            (D.drop p).drop (2 + (encHead r).length) := by
          rw [List.drop_drop]; ring_nf
        rw [hdd, hDr]
        have hsh : [13, 10] ++ (encodeRec r ++ (rest.map encodeRec).flatten) =
            ([13, 10] ++ encHead r) ++
              (r.payload ++ ([13, 10] ++ (rest.map encodeRec).flatten)) := by
          unfold encodeRec
          simp
        rw [hsh]
        exact List.drop_left' (by
          simp only [List.length_append, List.length_cons, List.length_nil])
      have hD3 : D.drop (p + 2 + (encHead r).length + r.payload.length) =
          [13, 10] ++ (rest.map encodeRec).flatten := by
        have hdd : D.drop (p + 2 + (encHead r).length + r.payload.length) =
            (D.drop (p + 2 + (encHead r).length)).drop r.payload.length := by
          rw [List.drop_drop]
        rw [hdd, hD2]
        exact List.drop_left' rfl
      have hplen : r.payload.length ≤
          D.length - (p + 2 + (encHead r).length) := by
        have hgl := congrArg List.length hD2
        simp only [List.length_drop, List.length_append] at hgl
        omega
      simp only [iterRun]
      rw [step_one_blank D p r _ ph F hwfr hDr]
      by_cases hf : _str_record_type_to_enum r.token &&& F = 0
      · rw [if_pos hf]
        simp only
        rw [ih D _ a ph F hwfrest hfuel' hD3]
        simp [filterLawExpected, List.filter_cons, hf]
      · rw [if_neg hf]
        simp only
        rw [iterRun_norm recInfo a _ _ ph F (by omega),
          normalize_after_yield D _ _ hplen,
          ih D _ a ph F hwfrest hfuel' hD3]
        simp [filterLawExpected, List.filter_cons, hf, recInfo, parsedRecord]

/-! ### Claim C2 -/

/-- C2 — confirmed.  Iterating a canonical well-formed WARC stream with
`record_type_filter = F` yields exactly those records whose `record_type` has
a non-zero bitwise AND with `F`, in stream order (observed as their
`(record_type, content_length)` pairs), iteration terminates cleanly at `Eof`
with the reader at the end of the stream, and a pull that skips a filtered
record consumes exactly its `content_length` payload bytes (its resulting
reader stands at the end of the record's payload). -/
theorem c2_filter_law (rs : List RawRec) (ph : Bool) (F : Nat) (fuel : Nat)
    (hwf : ∀ r ∈ rs, wfRec r) (hfuel : rs.length + 1 ≤ fuel) :
    (iterRun recInfo fuel
        (ArchiveIterator.init ((rs.map encodeRec).flatten) ph F) =
      (filterLawExpected rs F, true, ((rs.map encodeRec).flatten).length))
    ∧ (∀ (D : List Nat) (p : Nat) (r : RawRec) (rest : List Nat),
        D.drop p = encodeRec r ++ rest → wfRec r →
        _str_record_type_to_enum r.token &&& F = 0 →
        _read_next_record ⟨⟨D, p, none⟩, none, ph, F⟩ =
          (.skip_next, ⟨⟨D, p + (encHead r).length + r.payload.length, none⟩,
            none, ph, F⟩)) := by
  constructor
  · cases rs with
    | nil =>
      cases fuel with
      | zero => simp at hfuel
      | succ a =>
        simp only [iterRun, ArchiveIterator.init]
        rw [step_eof_empty _ 0 ph F (by simp)]
        rfl
    | cons r rest =>
      cases fuel with
      | zero => simp at hfuel
      | succ a =>
        set D := ((r :: rest).map encodeRec).flatten with hDdef
        have hwfr : wfRec r := hwf r (List.mem_cons_self r rest)
        have hwfrest : ∀ r' ∈ rest, wfRec r' :=
          fun r' hr' => hwf r' (List.mem_cons_of_mem r hr')
        have hfuel' : rest.length + 1 ≤ a := by
          simp only [List.length_cons] at hfuel
          omega
        have hD0 : D.drop 0 = encodeRec r ++ (rest.map encodeRec).flatten := by
          simp [hDdef]
        have hD2 : D.drop ((encHead r).length) =
            r.payload ++ ([13, 10] ++ (rest.map encodeRec).flatten) := by
          have hdd : D.drop ((encHead r).length) =
              (D.drop 0).drop ((encHead r).length) := by simp
          rw [hdd, hD0]
          have hsh : encodeRec r ++ (rest.map encodeRec).flatten =
              encHead r ++ (r.payload ++ ([13, 10] ++
                (rest.map encodeRec).flatten)) := by
            unfold encodeRec
            simp
          rw [hsh]
          exact List.drop_left' rfl
        have hD3 : D.drop ((encHead r).length + r.payload.length) =
            [13, 10] ++ (rest.map encodeRec).flatten := by
          have hdd : D.drop ((encHead r).length + r.payload.length) =
              (D.drop ((encHead r).length)).drop r.payload.length := by
            rw [List.drop_drop]
          rw [hdd, hD2]
          exact List.drop_left' rfl
        have hplen : r.payload.length ≤ D.length - (encHead r).length := by
          have hgl := congrArg List.length hD2
          simp only [List.length_drop, List.length_append] at hgl
          omega
        simp only [iterRun, ArchiveIterator.init]
        rw [step_one D 0 r _ ph F hwfr hD0]
        simp only [Nat.zero_add]
        by_cases hf : _str_record_type_to_enum r.token &&& F = 0
        · rw [if_pos hf]
          simp only
          rw [iter_loop_blank rest D _ a ph F hwfrest hfuel' hD3]
          simp [filterLawExpected, List.filter_cons, hf]
        · rw [if_neg hf]
          simp only
          rw [iterRun_norm recInfo a _ _ ph F (by omega),
            normalize_after_yield D _ _ hplen,
            iter_loop_blank rest D _ a ph F hwfrest hfuel' hD3]
          simp [filterLawExpected, List.filter_cons, hf, recInfo, parsedRecord]
  · intro D p r rest hD hwfr hf
    rw [step_one D p r rest ph F hwfr hD, if_pos hf]

/-- Witness for C2 at a concrete stream of three records filtered down to the
`response` record. -/
theorem c2_filter_law_witness :
    (iterRun recInfo 4
        (ArchiveIterator.init
          (([⟨bs "warcinfo", bs "hello"⟩, ⟨bs "response", bs "xy"⟩,
             ⟨bs "request", bs "z"⟩] : List RawRec).map encodeRec).flatten
          true rtResponse) =
      (filterLawExpected
        [⟨bs "warcinfo", bs "hello"⟩, ⟨bs "response", bs "xy"⟩,
         ⟨bs "request", bs "z"⟩] rtResponse, true,
       ((([⟨bs "warcinfo", bs "hello"⟩, ⟨bs "response", bs "xy"⟩,
           ⟨bs "request", bs "z"⟩] : List RawRec).map encodeRec).flatten).length))
    ∧ filterLawExpected
        [⟨bs "warcinfo", bs "hello"⟩, ⟨bs "response", bs "xy"⟩,
         ⟨bs "request", bs "z"⟩] rtResponse = [(rtResponse, 2)] := by
  constructor
  · exact (c2_filter_law
      [⟨bs "warcinfo", bs "hello"⟩, ⟨bs "response", bs "xy"⟩,
       ⟨bs "request", bs "z"⟩] true rtResponse 4
      (by intro r hr; fin_cases hr <;> exact ⟨by decide, by decide, by decide⟩)
      (by decide)).1
  · decide

/-! ### Claim C3: round trip -/

/-- Serializing the parsed headers reproduces the header block bytes. -/
theorem writeBytes_parsed (r : RawRec) :
    (parsedHeaders r).writeBytes ++ [13, 10] = encHead r := by
  unfold parsedHeaders WarcHeaderMap.writeBytes encHead
  dsimp only
  rw [if_neg (by decide)]
  simp only [List.map_cons, List.map_nil, List.flatten_cons, List.flatten_nil]
  rw [if_neg (by decide), if_neg (by decide)]
  rw [show (bs "WARC-Type" : List Nat) ++ [58, 32] = bs "WARC-Type: " from by decide,
    show (bs "Content-Length" : List Nat) ++ [58, 32] = bs "Content-Length: "
      from by decide]
  simp

/-- Every real record-type bit is contained in `any_type`. -/
theorem enum_land_any (t : List Nat) :
    ¬ (_str_record_type_to_enum t &&& rtAnyType = 0) := by
  simp only [_str_record_type_to_enum]
  split_ifs <;> decide

/-- The fast write path on a record the iterator yielded reproduces its wire
encoding and leaves the shared reader at the end of the payload. -/
theorem write_parsed (r : RawRec) (D : List Nat) (P sp : Nat) (rest : List Nat)
    (sha1 : List Nat → List Nat) (chunk : Nat) (hc : 0 < chunk)
    (hD : D.drop P = r.payload ++ rest) :
    (parsedRecord r D P sp).write sha1 false chunk =
      (encodeRec r,
        { parsedRecord r D P sp with reader := ⟨D, P + r.payload.length, some 0⟩ }) := by
  have hlen : r.payload.length ≤ D.length - P := by
    have hgl := congrArg List.length hD
    simp only [List.length_drop, List.length_append] at hgl
    omega
  have havail : BufferedReader.avail ⟨D, P, some r.payload.length⟩ =
      r.payload.length := by
    unfold BufferedReader.avail
    simp
    omega
  have hwin : BufferedReader.window ⟨D, P, some r.payload.length⟩ = r.payload := by
    unfold BufferedReader.window
    rw [havail]
    show (D.drop P).take r.payload.length = r.payload
    rw [hD]
    exact List.take_left' rfl
  have hca : BufferedReader.consume_all ⟨D, P, some r.payload.length⟩ =
      ⟨D, P + r.payload.length, some 0⟩ := by
    unfold BufferedReader.consume_all
    rw [havail]
    simp [BufferedReader.advance]
  unfold WarcRecord.write
  rw [if_pos (by simp [parsedRecord])]
  unfold _write_impl
  rw [readChunks_spec _ _ hc]
  simp only [parsedRecord]
  rw [hwin, hca]
  rw [if_neg (by simp)]
  simp only [Prod.mk.injEq]
  constructor
  · rw [show ((parsedHeaders r).writeBytes ++ [13, 10] ++ [] ++ r.payload ++ [13, 10] :
        List Nat) = ((parsedHeaders r).writeBytes ++ [13, 10]) ++
          (r.payload ++ [13, 10]) from by simp,
      writeBytes_parsed r]
    unfold encodeRec
    simp
  · trivial

theorem normalize_after_write (D : List Nat) (P : Nat) :
    (BufferedReader.consume_all ⟨D, P, some 0⟩).reset_limit = ⟨D, P, none⟩ := by
  unfold BufferedReader.consume_all BufferedReader.reset_limit
  have ha : BufferedReader.avail ⟨D, P, some 0⟩ = 0 := by
    unfold BufferedReader.avail
    simp
  rw [ha]
  simp [BufferedReader.advance]

theorem iterWrite_norm (sha1 : List Nat → List Nat) (chunk fuel : Nat)
    (rdr : BufferedReader) (rcd : WarcRecord) (ph : Bool) (F : Nat)
    (h : 1 ≤ fuel) :
    iterWriteFuel sha1 chunk fuel ⟨rdr, some rcd, ph, F⟩ =
      iterWriteFuel sha1 chunk fuel
        ⟨(BufferedReader.consume_all rdr).reset_limit, none, ph, F⟩ := by
  cases fuel with
  | zero => omega
  | succ a => rfl

/-- Round-trip loop invariant, mid-stream. -/
theorem iterwrite_loop_blank :
    ∀ (rs : List RawRec) (D : List Nat) (p fuel chunk : Nat)
      (sha1 : List Nat → List Nat),
      (∀ r ∈ rs, wfRec r) → rs.length + 1 ≤ fuel → 0 < chunk →
      D.drop p = [13, 10] ++ (rs.map encodeRec).flatten →
      iterWriteFuel sha1 chunk fuel ⟨⟨D, p, none⟩, none, false, rtAnyType⟩ =
        ((rs.map encodeRec).flatten, true) := by
  intro rs
  induction rs with
  | nil =>
    intro D p fuel chunk sha1 _ hfuel hc hD
    simp only [List.map_nil, List.flatten_nil, List.append_nil] at hD
    cases fuel with
    | zero => omega
    | succ a =>
      simp only [iterWriteFuel]
      rw [step_eof D p false rtAnyType hD]
      simp
  | cons r rest ih =>
    intro D p fuel chunk sha1 hwf hfuel hc hD
    cases fuel with
    | zero => simp at hfuel
    | succ a =>
      have hwfr : wfRec r := hwf r (List.mem_cons_self r rest)
      have hwfrest : ∀ r' ∈ rest, wfRec r' :=
        fun r' hr' => hwf r' (List.mem_cons_of_mem r hr')
      have hfuel' : rest.length + 1 ≤ a := by
        simp only [List.length_cons] at hfuel
        omega
      have hDr : D.drop p = [13, 10] ++
          (encodeRec r ++ (rest.map encodeRec).flatten) := by
        rw [hD]; simp
      have hD2 : D.drop (p + 2 + (encHead r).length) =
          r.payload ++ ([13, 10] ++ (rest.map encodeRec).flatten) := by
        have hdd : D.drop (p + 2 + (encHead r).length) =
            (D.drop p).drop (2 + (encHead r).length) := by
          rw [List.drop_drop]; ring_nf
        rw [hdd, hDr]
        have hsh : [13, 10] ++ (encodeRec r ++ (rest.map encodeRec).flatten) =
            ([13, 10] ++ encHead r) ++
              (r.payload ++ ([13, 10] ++ (rest.map encodeRec).flatten)) := by
          unfold encodeRec
          simp
        rw [hsh]
        exact List.drop_left' (by
          simp only [List.length_append, List.length_cons, List.length_nil])
      have hD3 : D.drop (p + 2 + (encHead r).length + r.payload.length) =
          [13, 10] ++ (rest.map encodeRec).flatten := by
        have hdd : D.drop (p + 2 + (encHead r).length + r.payload.length) =
            (D.drop (p + 2 + (encHead r).length)).drop r.payload.length := by
          rw [List.drop_drop]
        rw [hdd, hD2]
        exact List.drop_left' rfl
      simp only [iterWriteFuel]
      rw [step_one_blank D p r _ false rtAnyType hwfr hDr,
        if_neg (enum_land_any r.token)]
      simp only
      rw [write_parsed r D _ _ (([13, 10] ++ (rest.map encodeRec).flatten))
        sha1 chunk hc hD2]
      simp only
      rw [iterWrite_norm sha1 chunk a _ _ false rtAnyType (by omega),
        normalize_after_write D _,
        ih D _ a chunk sha1 hwfrest hfuel' hc hD3]
      simp

/-- C3 — confirmed.  Iterating a canonical well-formed WARC stream with
`parse_http = false` and writing every yielded record to a fresh output with
`checksum_data = false` reproduces the input stream byte for byte (here even
without a blank-line discrepancy), ending at a clean `Eof`. -/
theorem c3_round_trip (rs : List RawRec) (sha1 : List Nat → List Nat)
    (chunk fuel : Nat) (hwf : ∀ r ∈ rs, wfRec r) (hc : 0 < chunk)
    (hfuel : rs.length + 1 ≤ fuel) :
    iterWriteFuel sha1 chunk fuel
        (ArchiveIterator.init ((rs.map encodeRec).flatten) false rtAnyType) =
      ((rs.map encodeRec).flatten, true) := by
  cases rs with
  | nil =>
    cases fuel with
    | zero => simp at hfuel
    | succ a =>
      simp only [iterWriteFuel, ArchiveIterator.init]
      rw [step_eof_empty _ 0 false rtAnyType (by simp)]
      simp
  | cons r rest =>
    cases fuel with
    | zero => simp at hfuel
    | succ a =>
      set D := ((r :: rest).map encodeRec).flatten with hDdef
      have hwfr : wfRec r := hwf r (List.mem_cons_self r rest)
      have hwfrest : ∀ r' ∈ rest, wfRec r' :=
        fun r' hr' => hwf r' (List.mem_cons_of_mem r hr')
      have hfuel' : rest.length + 1 ≤ a := by
        simp only [List.length_cons] at hfuel
        omega
      have hD0 : D.drop 0 = encodeRec r ++ (rest.map encodeRec).flatten := by
        simp [hDdef]
      have hD2 : D.drop ((encHead r).length) =
          r.payload ++ ([13, 10] ++ (rest.map encodeRec).flatten) := by
        have hdd : D.drop ((encHead r).length) =
            (D.drop 0).drop ((encHead r).length) := by simp
        rw [hdd, hD0]
        have hsh : encodeRec r ++ (rest.map encodeRec).flatten =
            encHead r ++ (r.payload ++ ([13, 10] ++
              (rest.map encodeRec).flatten)) := by
          unfold encodeRec
          simp
        rw [hsh]
        exact List.drop_left' rfl
      have hD3 : D.drop ((encHead r).length + r.payload.length) =
          [13, 10] ++ (rest.map encodeRec).flatten := by
        have hdd : D.drop ((encHead r).length + r.payload.length) =
            (D.drop ((encHead r).length)).drop r.payload.length := by
          rw [List.drop_drop]
        rw [hdd, hD2]
        exact List.drop_left' rfl
      simp only [iterWriteFuel, ArchiveIterator.init]
      rw [step_one D 0 r _ false rtAnyType hwfr hD0,
        if_neg (enum_land_any r.token)]
      simp only [Nat.zero_add]
      rw [write_parsed r D _ _ ([13, 10] ++ (rest.map encodeRec).flatten)
        sha1 chunk hc hD2]
      simp only
      rw [iterWrite_norm sha1 chunk a _ _ false rtAnyType (by omega),
        normalize_after_write D _,
        iterwrite_loop_blank rest D _ a chunk sha1 hwfrest hfuel' hc hD3]
      simp [hDdef]

/-- Witness for C3 at a concrete two-record stream with the default
16384-byte chunk size. -/
theorem c3_round_trip_witness :
    iterWriteFuel (fun x => x) 16384 3
        (ArchiveIterator.init
          (([⟨bs "warcinfo", bs "hello"⟩, ⟨bs "response", bs "xy"⟩] :
            List RawRec).map encodeRec).flatten false rtAnyType) =
      ((([⟨bs "warcinfo", bs "hello"⟩, ⟨bs "response", bs "xy"⟩] :
        List RawRec).map encodeRec).flatten, true) :=
  c3_round_trip [⟨bs "warcinfo", bs "hello"⟩, ⟨bs "response", bs "xy"⟩]
    (fun x => x) 16384 3
    (by intro r hr; fin_cases hr <;> exact ⟨by decide, by decide, by decide⟩)
    (by decide) (by decide)

/-! ### Claim C10: the `status_code` property -/

/-- C10 — code bug.  On the well-formed status line `HTTP/1.1 200 OK` (three
space-separated fields, all-digit second field) the `status_code` property
does not return `200`: after its checks succeed it executes `int(s)` on the
whole split *list*, raising a `TypeError`.  The `None` half of the claim does
hold: a wrong field count or a non-`HTTP/` prefix yield `None`. -/
theorem c10_status_code_bug :
    WarcHeaderMap.status_code ⟨bs "HTTP/1.1 200 OK", []⟩ = .exn "TypeError"
    ∧ WarcHeaderMap.status_code ⟨bs "HTTP/1.1 200", []⟩ = .ok none
    ∧ WarcHeaderMap.status_code ⟨bs "HTTP/1.1 abc OK", []⟩ = .ok none
    ∧ WarcHeaderMap.status_code ⟨bs "ICY 200 OK", []⟩ = .ok none := by
  refine ⟨?_, ?_, ?_, ?_⟩ <;> decide

/-! ### Claim C8: header-map lookups -/

/-- C8 counterexample: a map holding the single pair `("X-Foo", "bar")`.
Looking up the case variant `"x-foo"` through item access / `get` (both go
through `asdict()`, a case-sensitive Python dict) finds nothing, although the
name matches case-insensitively — as the internal `get_header` shows. -/
theorem c8_counterexample :
    WarcHeaderMap.asdict_get ⟨[], [(bs "X-Foo", bs "bar")]⟩ (bs "x-foo") = none
    ∧ str_to_lower (bs "x-foo") = str_to_lower (bs "X-Foo")
    ∧ WarcHeaderMap.get_header ⟨[], [(bs "X-Foo", bs "bar")]⟩ (bs "x-foo") =
        bs "bar" := by
  refine ⟨?_, ?_, ?_⟩ <;> decide

theorem getHeaderAux_first :
    ∀ (pre : List (List Nat × List Nat)) (n v : List Nat)
      (post : List (List Nat × List Nat)) (kl : List Nat),
      (∀ q ∈ pre, str_to_lower q.1 ≠ kl) → str_to_lower n = kl →
      WarcHeaderMap.getHeaderAux (pre ++ (n, v) :: post) kl = v := by
  intro pre
  induction pre with
  | nil =>
    intro n v post kl _ hn
    rw [List.nil_append]
    unfold WarcHeaderMap.getHeaderAux
    rw [if_pos hn]
  | cons q qs ih =>
    intro n v post kl hpre hn
    rw [List.cons_append]
    show WarcHeaderMap.getHeaderAux ((q.1, q.2) :: (qs ++ (n, v) :: post)) kl = v
    unfold WarcHeaderMap.getHeaderAux
    rw [if_neg (hpre q (List.mem_cons_self q qs))]
    exact ih n v post kl (fun q' hq' => hpre q' (List.mem_cons_of_mem q hq')) hn

theorem getLast?_cons (x : List Nat × List Nat) (l : List (List Nat × List Nat)) :
    (x :: l).getLast? = match l.getLast? with
      | some y => some y
      | none => some x := by
  induction l generalizing x with
  | nil => rfl
  | cons y ys ih =>
    rw [List.getLast?_cons_cons, ih y]
    rcases ys.getLast? with _ | z <;> rfl

theorem pyDictInsert_lookup_same :
    ∀ (d : List (List Nat × List Nat)) (k v : List Nat),
      (WarcHeaderMap.pyDictInsert d k v).lookup k = some v := by
  intro d
  induction d with
  | nil =>
    intro k v
    simp [WarcHeaderMap.pyDictInsert, List.lookup]
  | cons q rest ih =>
    intro k v
    rcases q with ⟨k0, v0⟩
    show (WarcHeaderMap.pyDictInsert ((k0, v0) :: rest) k v).lookup k = some v
    unfold WarcHeaderMap.pyDictInsert
    by_cases h : k0 = k
    · rw [if_pos h]
      simp [List.lookup, h]
    · rw [if_neg h]
      have h' : (k == k0) = false := beq_eq_false_iff_ne.mpr (Ne.symm h)
      simp [List.lookup, h', ih k v]

theorem pyDictInsert_lookup_other :
    ∀ (d : List (List Nat × List Nat)) (k' v k : List Nat), k' ≠ k →
      (WarcHeaderMap.pyDictInsert d k' v).lookup k = d.lookup k := by
  intro d
  induction d with
  | nil =>
    intro k' v k hne
    have h' : (k == k') = false := beq_eq_false_iff_ne.mpr (Ne.symm hne)
    simp [WarcHeaderMap.pyDictInsert, List.lookup, h']
  | cons q rest ih =>
    intro k' v k hne
    rcases q with ⟨k0, v0⟩
    show (WarcHeaderMap.pyDictInsert ((k0, v0) :: rest) k' v).lookup k = _
    unfold WarcHeaderMap.pyDictInsert
    by_cases h : k0 = k'
    · rw [if_pos h]
      have h' : (k == k0) = false := by
        refine beq_eq_false_iff_ne.mpr (fun hh => hne ?_)
        rw [← h, ← hh]
      simp [List.lookup, h']
    · rw [if_neg h]
      by_cases h2 : k = k0
      · simp [List.lookup, h2]
      · have h' : (k == k0) = false := beq_eq_false_iff_ne.mpr h2
        simp [List.lookup, h', ih k' v k hne]

theorem pyDict_fold_lookup :
    ∀ (hs acc : List (List Nat × List Nat)) (k : List Nat),
      (hs.foldl (fun d kv => WarcHeaderMap.pyDictInsert d kv.1 kv.2) acc).lookup k
        = match (hs.filter (fun q => q.1 == k)).getLast? with
          | some q => some q.2
          | none => acc.lookup k := by
  intro hs
  induction hs with
  | nil => intro acc k; rfl
  | cons q rest ih =>
    intro acc k
    rcases q with ⟨k0, v0⟩
    rw [List.foldl_cons, ih]
    by_cases h : k0 = k
    · have hb : (k0 == k) = true := beq_iff_eq.mpr h
      rw [List.filter_cons, if_pos hb, getLast?_cons]
      rcases hlast : (rest.filter (fun q => q.1 == k)).getLast? with _ | q
      · rw [hlast]
        show (WarcHeaderMap.pyDictInsert acc k0 v0).lookup k = some v0
        rw [← h]
        exact pyDictInsert_lookup_same acc k0 v0
      · rw [hlast]
    · have hb : (k0 == k) = false := beq_eq_false_iff_ne.mpr h
      rw [List.filter_cons, if_neg (by simp [hb])]
      rcases hlast : (rest.filter (fun q => q.1 == k)).getLast? with _ | q
      · rw [hlast]
        exact pyDictInsert_lookup_other acc k0 v0 k h
      · rw [hlast]

theorem asdict_get_spec (m : WarcHeaderMap) (k : List Nat) :
    m.asdict_get k =
      ((m.headers.filter (fun q => q.1 == k)).getLast?).map (fun q => q.2) := by
  show (WarcHeaderMap.pyDict m.headers).lookup k = _
  unfold WarcHeaderMap.pyDict
  rw [pyDict_fold_lookup]
  rcases hq : (m.headers.filter (fun q => q.1 == k)).getLast? with _ | q
  · rw [hq]
    rfl
  · rw [hq]
    rfl

/-- C8 — amended.  What does hold of the lookups: (1) the internal
`get_header` is case-insensitive in its argument; (2) it returns the value of
the *first* pair whose name matches case-insensitively; (3) headers are
stored as written, appended in order with duplicates kept; (4) item access
and `get` go through the `asdict()` dict, i.e. they are an *exact*-name
lookup returning the value of the *last* duplicate of that exact name. -/
theorem c8_amended :
    (∀ (m : WarcHeaderMap) (k1 k2 : List Nat),
      str_to_lower k1 = str_to_lower k2 →
      m.get_header k1 = m.get_header k2)
    ∧ (∀ (m : WarcHeaderMap) (pre : List (List Nat × List Nat)) (n v : List Nat)
        (post : List (List Nat × List Nat)) (k : List Nat),
        m.headers = pre ++ (n, v) :: post →
        (∀ q ∈ pre, str_to_lower q.1 ≠ str_to_lower k) →
        str_to_lower n = str_to_lower k →
        m.get_header k = v)
    ∧ (∀ (m : WarcHeaderMap) (k v : List Nat),
        (m.append_header k v).headers = m.headers ++ [(k, v)])
    ∧ (∀ (m : WarcHeaderMap) (k : List Nat),
        m.asdict_get k =
          ((m.headers.filter (fun q => q.1 == k)).getLast?).map (fun q => q.2)) := by
  refine ⟨?_, ?_, ?_, asdict_get_spec⟩
  · intro m k1 k2 h
    show WarcHeaderMap.getHeaderAux m.headers (str_to_lower k1) =
      WarcHeaderMap.getHeaderAux m.headers (str_to_lower k2)
    rw [h]
  · intro m pre n v post k hm hpre hn
    show WarcHeaderMap.getHeaderAux m.headers (str_to_lower k) = v
    rw [hm]
    exact getHeaderAux_first pre n v post (str_to_lower k) hpre hn
  · intro m k v
    rfl

/-- Witness for the amended C8 statement at concrete inputs. -/
theorem c8_amended_witness :
    WarcHeaderMap.get_header ⟨[], [(bs "X-Foo", bs "bar")]⟩ (bs "x-foo") =
      WarcHeaderMap.get_header ⟨[], [(bs "X-Foo", bs "bar")]⟩ (bs "X-FOO")
    ∧ WarcHeaderMap.get_header ⟨[], [(bs "X-Foo", bs "bar")]⟩ (bs "x-FOO") =
        bs "bar"
    ∧ (WarcHeaderMap.append_header ⟨bs "S", [(bs "A", bs "1")]⟩ (bs "A")
        (bs "2")).headers = [(bs "A", bs "1"), (bs "A", bs "2")]
    ∧ WarcHeaderMap.asdict_get ⟨[], [(bs "A", bs "1"), (bs "A", bs "2")]⟩
        (bs "A") = some (bs "2") := by
  refine ⟨c8_amended.1 ⟨[], [(bs "X-Foo", bs "bar")]⟩ (bs "x-foo") (bs "X-FOO")
      (by decide),
    c8_amended.2.1 ⟨[], [(bs "X-Foo", bs "bar")]⟩ [] (bs "X-Foo") (bs "bar") []
      (bs "x-FOO") rfl (fun q hq => absurd hq (List.not_mem_nil q)) (by decide),
    ?_, ?_⟩
  · have h := c8_amended.2.2.1 ⟨bs "S", [(bs "A", bs "1")]⟩ (bs "A") (bs "2")
    simpa using h
  · have h := c8_amended.2.2.2 ⟨[], [(bs "A", bs "1"), (bs "A", bs "2")]⟩ (bs "A")
    rw [h]
    decide

/-! ### Claim C9: bytes emitted by `write` -/

theorem write_impl_shape (hdrs : WarcHeaderMap) (hh : Option WarcHeaderMap)
    (hp : Bool) (r : BufferedReader) (wph : Bool) (chunk : Nat) (hc : 0 < chunk) :
    (_write_impl hdrs hh hp r wph chunk).1 =
      hdrs.writeBytes ++ [13, 10] ++
        ((if wph ∧ hp then (hh.getD {}).writeBytes ++ [13, 10] else []) ++
          BufferedReader.window r) ++ [13, 10] := by
  unfold _write_impl
  dsimp only
  rw [readChunks_spec r chunk hc]
  simp [List.append_assoc]

/-- C9 counterexample: the concrete fast-path record `WARC/1.1` /
`Content-Length: 2` with payload `hi`.  The bytes emitted end in a *single*
`\r\n` after the payload, not in the `\r\n\r\n` the spec asserts. -/
theorem c9_counterexample :
    (WarcRecord.write
        { headers := ⟨bs "WARC/1.1", [(bs "Content-Length", bs "2")]⟩,
          reader := ⟨bs "hi", 0, none⟩ }
        (fun x => x) false 16384).1 =
      bs "WARC/1.1\r\nContent-Length: 2\r\n\r\nhi\r\n"
    ∧ ((([13, 10, 13, 10] : List Nat).isSuffixOf
        (WarcRecord.write
          { headers := ⟨bs "WARC/1.1", [(bs "Content-Length", bs "2")]⟩,
            reader := ⟨bs "hi", 0, none⟩ }
          (fun x => x) false 16384).1) = false) := by
  refine ⟨?_, ?_⟩ <;> decide

/-- C9 — amended.  In every mode, `write` emits the WARC header block, one
blank line, the record block (HTTP headers plus a blank line when parsed,
then the remaining payload bytes), and exactly one final `\r\n` — there is no
trailing blank line after the payload. -/
theorem c9_amended (rcd : WarcRecord) (sha1 : List Nat → List Nat)
    (checksum_data : Bool) (chunk : Nat) (hc : 0 < chunk) :
    ∃ hdrBytes blockBytes : List Nat,
      (rcd.write sha1 checksum_data chunk).1 =
        hdrBytes ++ [13, 10] ++ blockBytes ++ [13, 10]
      ∧ ((¬ checksum_data ∧ ¬ rcd.http_parsed) →
          blockBytes = BufferedReader.window rcd.reader)
      ∧ (¬ (¬ checksum_data ∧ ¬ rcd.http_parsed) →
          blockBytes = (if rcd.http_parsed then
              (rcd.http_headers.getD {}).writeBytes ++ [13, 10] else []) ++
            BufferedReader.window rcd.reader) := by
  by_cases hfast : ¬ checksum_data ∧ ¬ rcd.http_parsed
  · refine ⟨rcd.headers.writeBytes, BufferedReader.window rcd.reader, ?_,
      fun _ => rfl, fun hq => absurd hfast hq⟩
    simp only [WarcRecord.write]
    rw [if_pos hfast, write_impl_shape _ _ _ _ _ _ hc,
      if_neg (fun hh => hfast.2 hh.2)]
    simp
  · have key : (rcd.write sha1 checksum_data chunk).1 =
        (rcd.write sha1 checksum_data chunk).2.headers.writeBytes ++ [13, 10] ++
          ((if rcd.http_parsed then
              (rcd.http_headers.getD {}).writeBytes ++ [13, 10] else []) ++
            BufferedReader.window rcd.reader) ++ [13, 10] := by
      simp only [WarcRecord.write]
      rw [if_neg hfast, write_impl_shape _ _ _ _ _ _ hc,
        if_neg (show ¬ ((false : Bool) ∧ rcd.http_parsed) from
          fun hh => absurd hh.1 (by decide)),
        readChunks_spec rcd.reader chunk hc]
      rw [BufferedReader.window_mk_none, List.drop_zero]
      simp [List.append_assoc]
    exact ⟨_, _, key, fun hq => absurd hq hfast, fun _ => rfl⟩

/-- Witness for the amended C9 statement at a concrete record. -/
theorem c9_amended_witness :
    ∃ hdrBytes blockBytes : List Nat,
      (WarcRecord.write
          { headers := ⟨bs "WARC/1.1", [(bs "Content-Length", bs "2")]⟩,
            reader := ⟨bs "hi", 0, none⟩ }
          (fun x => x) true 16384).1 =
        hdrBytes ++ [13, 10] ++ blockBytes ++ [13, 10]
      ∧ ((¬ (true : Bool) ∧ ¬ (false : Bool)) →
          blockBytes = BufferedReader.window ⟨bs "hi", 0, none⟩)
      ∧ (¬ (¬ (true : Bool) ∧ ¬ (false : Bool)) →
          blockBytes = (if (false : Bool) then
              ((none : Option WarcHeaderMap).getD {}).writeBytes ++ [13, 10]
            else []) ++ BufferedReader.window ⟨bs "hi", 0, none⟩) :=
  c9_amended
    { headers := ⟨bs "WARC/1.1", [(bs "Content-Length", bs "2")]⟩,
      reader := ⟨bs "hi", 0, none⟩ }
    (fun x => x) true 16384 (by decide)

/-! ### Claim C7: header-block termination -/

/-- C7 counterexample: the header block `"\nA: b\r\n\r\n"`.  Were a bare `\n`
line a terminator, parsing would stop after one byte with no headers; instead
the parser treats it as a continuation line and keeps going: it consumes all
nine bytes and produces two header entries. -/
theorem c7_counterexample :
    (parse_header_block ⟨bs "\nA: b\r\n\r\n", 0, none⟩ {} false).consumed = 9
    ∧ (parse_header_block ⟨bs "\nA: b\r\n\r\n", 0, none⟩ {} false).target.headers
        = [([], [10]), (bs "A", bs "b")] := by
  refine ⟨?_, ?_⟩ <;> decide

/-- C7 — amended.  `parse_header_block` always consumes exactly the bytes by
which it advances the reader (1); it terminates immediately on a `\r\n` line
or on the empty line returned at EOF (2); but a bare `\n` line is *not* a
terminator: it is folded as a whitespace continuation (here
`strip_str "\n" = "\n"`, since the C++ strip of a one-character whitespace
string returns it unchanged) and parsing continues after it (3). -/
theorem c7_amended :
    (∀ (r : BufferedReader) (t : WarcHeaderMap) (hsl : Bool),
      (parse_header_block r t hsl).reader.pos =
        r.pos + (parse_header_block r t hsl).consumed)
    ∧ (∀ (r : BufferedReader) (t : WarcHeaderMap) (hsl : Bool),
        (BufferedReader.readline r).1 = [] ∨
          (BufferedReader.readline r).1 = [13, 10] →
        parse_header_block r t hsl =
          ⟨(BufferedReader.readline r).1.length, t,
            (BufferedReader.readline r).2⟩)
    ∧ (∀ (r : BufferedReader) (t : WarcHeaderMap) (hsl : Bool),
        (BufferedReader.readline r).1 = [10] →
        parse_header_block r t hsl =
          { consumed := 1 + (parse_header_block (BufferedReader.readline r).2
              (t.add_continuation [10]) hsl).consumed,
            target := (parse_header_block (BufferedReader.readline r).2
              (t.add_continuation [10]) hsl).target,
            reader := (parse_header_block (BufferedReader.readline r).2
              (t.add_continuation [10]) hsl).reader }) := by
  refine ⟨?_, phb_done, ?_⟩
  · intro r t hsl
    exact (parse_header_block_spec r t hsl).2.1
  · intro r t hsl h
    have hne : ¬ ((BufferedReader.readline r).1 = [] ∨
        (BufferedReader.readline r).1 = [13, 10]) := by
      rw [h]; decide
    have hsp : isspaceB ((BufferedReader.readline r).1.headD 0) = true := by
      rw [h]; decide
    rw [phb_cont r t hsl hne hsp, h]
    rw [show strip_str [10] = [10] from by decide]
    simp

/-- Witness for the amended C7 statement at concrete inputs. -/
theorem c7_amended_witness :
    (parse_header_block ⟨bs "A: b\r\n\r\nrest", 0, none⟩ {} false).reader.pos =
      0 + (parse_header_block ⟨bs "A: b\r\n\r\nrest", 0, none⟩ {} false).consumed
    ∧ parse_header_block ⟨bs "\r\nrest", 0, none⟩ {} false =
        ⟨(BufferedReader.readline ⟨bs "\r\nrest", 0, none⟩).1.length, {},
          (BufferedReader.readline ⟨bs "\r\nrest", 0, none⟩).2⟩
    ∧ parse_header_block ⟨bs "\nA: b\r\n\r\n", 0, none⟩ {} false =
        { consumed := 1 + (parse_header_block
            (BufferedReader.readline ⟨bs "\nA: b\r\n\r\n", 0, none⟩).2
            (WarcHeaderMap.add_continuation {} [10]) false).consumed,
          target := (parse_header_block
            (BufferedReader.readline ⟨bs "\nA: b\r\n\r\n", 0, none⟩).2
            (WarcHeaderMap.add_continuation {} [10]) false).target,
          reader := (parse_header_block
            (BufferedReader.readline ⟨bs "\nA: b\r\n\r\n", 0, none⟩).2
            (WarcHeaderMap.add_continuation {} [10]) false).reader } :=
  ⟨c7_amended.1 ⟨bs "A: b\r\n\r\nrest", 0, none⟩ {} false,
   c7_amended.2.1 ⟨bs "\r\nrest", 0, none⟩ {} false (by decide),
   c7_amended.2.2 ⟨bs "\nA: b\r\n\r\n", 0, none⟩ {} false (by decide)⟩

/-! ### Claim C4: `parse_http` -/

/-- C4 — confirmed.  On a record whose HTTP block has not been parsed and
whose reader limit equals `content_length` (as the iterator sets it),
`parse_http` parses the HTTP header block with `has_status_line`, stores the
resulting map, subtracts the consumed byte count from `content_length`
(computed in `size_t` arithmetic, which cannot underflow here because the
parser never consumes more than the limit allows), marks the record parsed,
and a second call is the identity. -/
theorem c4_parse_http (rcd : WarcRecord)
    (h0 : rcd.http_parsed = false)
    (h1 : rcd.reader.limit = some rcd.content_length)
    (h2 : rcd.content_length < 2 ^ 64) :
    (rcd.parse_http).http_headers =
      some (parse_header_block rcd.reader {} true).target
    ∧ (rcd.parse_http).content_length =
        rcd.content_length - (parse_header_block rcd.reader {} true).consumed
    ∧ (rcd.parse_http).http_parsed = true
    ∧ (rcd.parse_http).parse_http = rcd.parse_http := by
  have hcons : (parse_header_block rcd.reader {} true).consumed ≤
      rcd.content_length := by
    have h3 := (parse_header_block_spec rcd.reader {} true).2.2
    have h4 : BufferedReader.avail rcd.reader ≤ rcd.content_length := by
      unfold BufferedReader.avail
      rw [h1]
      exact Nat.min_le_left _ _
    omega
  have heq : rcd.parse_http =
      { rcd with
        http_headers := some (parse_header_block rcd.reader {} true).target,
        content_length := (rcd.content_length +
          (2 ^ 64 - (parse_header_block rcd.reader {} true).consumed % 2 ^ 64))
            % 2 ^ 64,
        http_parsed := true,
        reader := (parse_header_block rcd.reader {} true).reader } := by
    unfold WarcRecord.parse_http
    rw [if_neg (by rw [h0]; simp)]
  set n := (parse_header_block rcd.reader {} true).consumed with hn
  refine ⟨by rw [heq], ?_, by rw [heq], ?_⟩
  · rw [heq]
    dsimp only
    have hmod : n % 2 ^ 64 = n := Nat.mod_eq_of_lt (by omega)
    rw [hmod]
    have hsplit : rcd.content_length + (2 ^ 64 - n) =
        (rcd.content_length - n) + 2 ^ 64 := by omega
    rw [hsplit, Nat.add_mod_right, Nat.mod_eq_of_lt (by omega)]
  · rw [heq]
    unfold WarcRecord.parse_http
    rw [if_pos rfl]

/-- Witness for C4 at a concrete record (`A: b\r\n\r\n` + 2 payload bytes,
`Content-Length` 10). -/
theorem c4_parse_http_witness :
    (({ content_length := 10, reader := ⟨bs "A: b\r\n\r\nXY", 0, some 10⟩ } :
        WarcRecord).parse_http).http_headers =
      some (parse_header_block ⟨bs "A: b\r\n\r\nXY", 0, some 10⟩ {} true).target
    ∧ (({ content_length := 10, reader := ⟨bs "A: b\r\n\r\nXY", 0, some 10⟩ } :
        WarcRecord).parse_http).content_length =
        10 - (parse_header_block ⟨bs "A: b\r\n\r\nXY", 0, some 10⟩ {}
          true).consumed
    ∧ (({ content_length := 10, reader := ⟨bs "A: b\r\n\r\nXY", 0, some 10⟩ } :
        WarcRecord).parse_http).http_parsed = true
    ∧ (({ content_length := 10, reader := ⟨bs "A: b\r\n\r\nXY", 0, some 10⟩ } :
        WarcRecord).parse_http).parse_http =
        ({ content_length := 10, reader := ⟨bs "A: b\r\n\r\nXY", 0, some 10⟩ } :
          WarcRecord).parse_http :=
  c4_parse_http
    { content_length := 10, reader := ⟨bs "A: b\r\n\r\nXY", 0, some 10⟩ }
    rfl rfl (by norm_num)

/-! ### Claim C5: `verify_block_digest` -/

/-- C5 — confirmed.  With a `WARC-Block-Digest` header of the shape
`alg ++ ":" ++ base32`, where the base32 part decodes, `verify_block_digest`
dispatches on the algorithm token: for `sha1`/`md5`/`sha256` it reads the
remaining payload, compares the computed digest against the decoded one, and
rebinds the record's reader to an in-memory copy of the payload positioned at
0; for any other token it returns `False` and leaves the record unchanged. -/
theorem c5_verify (digestOf : List Nat → List Nat → List Nat)
    (rcd : WarcRecord) (alg b32 D : List Nat)
    (hhdr : rcd.headers.get_header (bs "WARC-Block-Digest") = alg ++ 58 :: b32)
    (hnc : (58 : Nat) ∉ alg)
    (hdec : b32decode b32 = some D) :
    ((alg = bs "sha1" ∨ alg = bs "md5" ∨ alg = bs "sha256") →
      rcd.verify_block_digest digestOf =
        .ok (digestOf alg (BufferedReader.window rcd.reader) == D,
          { rcd with reader := ⟨BufferedReader.window rcd.reader, 0, none⟩ }))
    ∧ (¬ (alg = bs "sha1" ∨ alg = bs "md5" ∨ alg = bs "sha256") →
      rcd.verify_block_digest digestOf = .ok (false, rcd)) := by
  have hfi : (alg ++ 58 :: b32).findIdx? (fun c => c == 58) = some alg.length := by
    have := @findIdx?_prefix_false (fun c => c == 58) alg 58 b32 0
      (by
        intro c hc
        refine beq_eq_false_iff_ne.mpr (fun he => hnc ?_)
        rw [← he]
        exact hc) rfl
    simpa using this
  have htake : (alg ++ 58 :: b32).take alg.length = alg := List.take_left alg _
  have hdrop : (alg ++ 58 :: b32).drop (alg.length + 1) = b32 := by
    have ha : alg ++ 58 :: b32 = (alg ++ [58]) ++ b32 := by simp
    have hb : alg.length + 1 = (alg ++ [58]).length := by simp
    rw [ha, hb, List.drop_left]
  have hrc := readChunks_spec rcd.reader 1024 (by norm_num)
  constructor
  · intro hsup
    show _verify_digest digestOf rcd
      (rcd.headers.get_header (bs "WARC-Block-Digest")) = _
    rw [hhdr]
    unfold _verify_digest
    rw [hfi]
    simp only [htake, hdrop, hdec]
    rw [if_pos hsup, hrc]
  · intro hsup
    show _verify_digest digestOf rcd
      (rcd.headers.get_header (bs "WARC-Block-Digest")) = _
    rw [hhdr]
    unfold _verify_digest
    rw [hfi]
    simp only [htake, hdrop, hdec]
    rw [if_neg hsup]

/-- Witness for C5: a supported `sha1` digest over payload `abc` (with the
identity standing in for the digest function) and an unsupported `xxh3`
one. -/
theorem c5_verify_witness :
    (((bs "sha1" = bs "sha1" ∨ bs "sha1" = bs "md5" ∨ bs "sha1" = bs "sha256") →
      WarcRecord.verify_block_digest
        { reader := ⟨[97, 98, 99], 0, none⟩,
          headers :=
            { headers := [(bs "WARC-Block-Digest", bs "sha1:MFRGG===")] } }
        (fun _ p => p) =
        .ok (true,
          { reader := ⟨[97, 98, 99], 0, none⟩,
            headers :=
              { headers := [(bs "WARC-Block-Digest", bs "sha1:MFRGG===")] } }))
    ∧ (¬ (bs "sha1" = bs "sha1" ∨ bs "sha1" = bs "md5" ∨
          bs "sha1" = bs "sha256") →
      WarcRecord.verify_block_digest
        { reader := ⟨[97, 98, 99], 0, none⟩,
          headers :=
            { headers := [(bs "WARC-Block-Digest", bs "sha1:MFRGG===")] } }
        (fun _ p => p) =
        .ok (false,
          { reader := ⟨[97, 98, 99], 0, none⟩,
            headers :=
              { headers := [(bs "WARC-Block-Digest", bs "sha1:MFRGG===")] } })))
    ∧ (((bs "xxh3" = bs "sha1" ∨ bs "xxh3" = bs "md5" ∨
          bs "xxh3" = bs "sha256") →
      WarcRecord.verify_block_digest
        { reader := ⟨[97, 98, 99], 0, none⟩,
          headers :=
            { headers := [(bs "WARC-Block-Digest", bs "xxh3:MFRGG===")] } }
        (fun _ p => p) =
        .ok (true,
          { reader := ⟨[97, 98, 99], 0, none⟩,
            headers :=
              { headers := [(bs "WARC-Block-Digest", bs "xxh3:MFRGG===")] } }))
    ∧ (¬ (bs "xxh3" = bs "sha1" ∨ bs "xxh3" = bs "md5" ∨
          bs "xxh3" = bs "sha256") →
      WarcRecord.verify_block_digest
        { reader := ⟨[97, 98, 99], 0, none⟩,
          headers :=
            { headers := [(bs "WARC-Block-Digest", bs "xxh3:MFRGG===")] } }
        (fun _ p => p) =
        .ok (false,
          { reader := ⟨[97, 98, 99], 0, none⟩,
            headers :=
              { headers := [(bs "WARC-Block-Digest", bs "xxh3:MFRGG===")] } }))) :=
  ⟨c5_verify (fun _ p => p)
      { reader := ⟨[97, 98, 99], 0, none⟩,
        headers :=
          { headers := [(bs "WARC-Block-Digest", bs "sha1:MFRGG===")] } }
      (bs "sha1") (bs "MFRGG===") [97, 98, 99] (by decide) (by decide)
      (by decide),
   c5_verify (fun _ p => p)
      { reader := ⟨[97, 98, 99], 0, none⟩,
        headers :=
          { headers := [(bs "WARC-Block-Digest", bs "xxh3:MFRGG===")] } }
      (bs "xxh3") (bs "MFRGG===") [97, 98, 99] (by decide) (by decide)
      (by decide)⟩

/-! ### Claim C1: malformed `Content-Length` -/

/-- C1 counterexample: a record whose `Content-Length` value is `abc`.  The
per-iteration step does not return `Eof`, reject the record or treat it as
length 0: the uncaught `stoi` failure raises out of `_read_next_record`, and
iteration ends abnormally (not at `Eof`). -/
theorem c1_counterexample :
    (_read_next_record (ArchiveIterator.init
        (bs "WARC/1.1\r\nContent-Length: abc\r\n\r\n") false rtAnyType)).1 =
      .exn
    ∧ (iterRun (fun r => r.stream_pos) 2 (ArchiveIterator.init
        (bs "WARC/1.1\r\nContent-Length: abc\r\n\r\n") false rtAnyType)).2.1 =
      false := by
  refine ⟨?_, ?_⟩ <;> decide

/-- C1 — amended.  A *missing* `Content-Length` is indeed treated as length 0:
the header scan leaves `content_length` unchanged (the iterator passes 0)
whenever no header is named `content-length` case-insensitively (1).  But an
*unparseable* value is neither rejected nor treated as 0: the scan raises the
`stoi` failure as soon as it reaches the header (2). -/
theorem c1_amended :
    (∀ (hs : List (List Nat × List Nat)) (cl rt : Nat) (http : Bool) (cnt : Nat),
      (∀ q ∈ hs, str_to_lower q.1 ≠ bs "content-length") →
      ∃ rt' http', scanHeaders hs cl rt http cnt = .ok (cl, rt', http'))
    ∧ (∀ (v : List Nat) (hs : List (List Nat × List Nat)) (cl rt : Nat)
        (http : Bool) (cnt : Nat), stoi v = none →
        scanHeaders ((bs "Content-Length", v) :: hs) cl rt http cnt =
          .exn "stoi") := by
  constructor
  · intro hs
    induction hs with
    | nil =>
      intro cl rt http cnt _
      exact ⟨rt, http, rfl⟩
    | cons q rest ih =>
      intro cl rt http cnt hq
      rcases q with ⟨k, v⟩
      have hk : str_to_lower k ≠ bs "content-length" :=
        hq (k, v) (List.mem_cons_self _ _)
      have hrest : ∀ q ∈ rest, str_to_lower q.1 ≠ bs "content-length" :=
        fun q hqq => hq q (List.mem_cons_of_mem _ hqq)
      show ∃ rt' http', scanHeaders ((k, v) :: rest) cl rt http cnt = _
      unfold scanHeaders
      rw [if_neg hk]
      by_cases hw : str_to_lower k = bs "warc-type"
      · rw [if_pos hw]
        by_cases hcnt : 3 ≤ cnt + 1
        · rw [if_pos hcnt]
          exact ⟨_, http, rfl⟩
        · rw [if_neg hcnt]
          exact ih cl _ http (cnt + 1) hrest
      · rw [if_neg hw]
        by_cases hct : str_to_lower k = bs "content-type" ∧
            v.take 16 = bs "application/http"
        · rw [if_pos hct]
          by_cases hcnt : 3 ≤ cnt + 1
          · rw [if_pos hcnt]
            exact ⟨rt, true, rfl⟩
          · rw [if_neg hcnt]
            exact ih cl rt true (cnt + 1) hrest
        · rw [if_neg hct]
          exact ih cl rt http cnt hrest
  · intro v hs cl rt http cnt hv
    show scanHeaders ((bs "Content-Length", v) :: hs) cl rt http cnt = _
    unfold scanHeaders
    rw [if_pos (by decide :
      str_to_lower (bs "Content-Length") = bs "content-length"), hv]

/-- Witness for the amended C1 statement: a header list with no
`Content-Length` keeps the passed-in length 7, and the value `abc` raises. -/
theorem c1_amended_witness :
    (∃ rt' http', scanHeaders [(bs "WARC-Type", bs "response")] 7 rtUnknown
      false 0 = .ok (7, rt', http'))
    ∧ scanHeaders [(bs "Content-Length", bs "abc")] 0 rtUnknown false 0 =
        .exn "stoi" :=
  ⟨c1_amended.1 [(bs "WARC-Type", bs "response")] 7 rtUnknown false 0
      (by decide),
   c1_amended.2 (bs "abc") [] 0 rtUnknown false 0 (by decide)⟩

/-! ### Claim C6: `stream_pos` on an uncompressed stream -/

/-- C6 — code bug.  On the uncompressed stream `\r\n` + `WARC/1.1...` the
version line sits at byte offset 2, but the record is yielded with
`stream_pos = 3`: for each blank line consumed before the version line the
code adds `line.size() + 1` (3 for `\r\n`) instead of the line's size, so
`stream_pos` overshoots the version-line offset on every stream in which
records are separated or preceded by blank lines. -/
theorem c6_stream_pos_bug :
    (iterRun (fun r => r.stream_pos) 2
      (ArchiveIterator.init
        ([13, 10] ++ bs "WARC/1.1\r\nContent-Length: 0\r\n\r\n")
        false rtAnyType)).1 = [3]
    ∧ (iterRun (fun r => r.stream_pos) 2
      (ArchiveIterator.init
        ([13, 10] ++ bs "WARC/1.1\r\nContent-Length: 0\r\n\r\n")
        false rtAnyType)).2.1 = true
    ∧ (([13, 10] ++ bs "WARC/1.1\r\nContent-Length: 0\r\n\r\n").drop 2).take 8 =
        bs "WARC/1.1" := by
  refine ⟨?_, ?_, ?_⟩ <;> decide

end FastWarc
